import Mathlib

/-!
# Motakjuq/rename: the rename engine of `rename.go`, `file_windows.go`

A shallow embedding of the engine (`Process`, `Rename.run`, `Rename.walk`,
`Rename.appendFile`, `Rename.destDirectory`, `createReplacer`, `Rename.copy`,
`getFileTime`) together with the library calls it relies on, and the
properties of the specification stated over it.

Go strings are byte sequences; they are lists here, one `Char` per byte.
The operating system is a parameter: a record of the calls the engine makes
(`OS`), over an arbitrary type of file-system states.
-/

namespace Motakjuq

/-! ## Strings -/

/-- A Go string: its bytes, in order. -/
abbrev Str := List Char

/-- The constant `os.PathSeparator` (the specification's examples are POSIX paths). -/
def PathSeparator : Char := '/'

/-- The library call `strings.LastIndex(s, string(c))`: the index of the last
occurrence of the byte `c`; `none` stands for `-1`. -/
def lastIndex (c : Char) : Str → Option Nat
  | [] => none
  | x :: xs =>
    match lastIndex c xs with
    | some i => some (i + 1)
    | none => if x = c then some 0 else none

/-- The library call `strings.HasPrefix(s, p)`. -/
def startsWith (p : Str) (s : Str) : Bool :=
  match p, s with
  | [], _ => true
  | _ :: _, [] => false
  | a :: p', b :: s' => a = b && startsWith p' s'

/-- The library call `strings.Contains(s, sub)`. -/
def stringsContains (s sub : Str) : Bool :=
  match s with
  | [] => startsWith sub []
  | c :: rest => startsWith sub (c :: rest) || stringsContains rest sub

/-- One scan of `strings.Replace(s, old, new, -1)` for a non-empty `old`: `skip`
is the number of bytes of a match that are still to be passed over. -/
def stringsReplaceAux (old new : Str) : Nat → Str → Str
  | _, [] => []
  | skip + 1, _ :: rest => stringsReplaceAux old new skip rest
  | 0, c :: rest =>
    if startsWith old (c :: rest) then new ++ stringsReplaceAux old new (old.length - 1) rest
    else c :: stringsReplaceAux old new 0 rest

/-- The library call `strings.Replace(s, old, new, -1)`, `old` non-empty: every
non-overlapping occurrence of `old`, found left to right, becomes `new`. -/
def stringsReplace (s old new : Str) : Str :=
  stringsReplaceAux old new 0 s

/-! ## Number formatting -/

/-- The library call `strconv.Itoa(n)` for `n ≥ 0`, also `fmt.Sprintf("%d", n)`. -/
def itoa (n : Nat) : Str :=
  Nat.toDigits 10 n

/-- The library call `fmt.Sprintf("%d", i)` for a signed integer. -/
def sprintfD (i : Int) : Str :=
  if i < 0 then '-' :: itoa (-i).toNat else itoa i.toNat

/-- Left-pads with `'0'` up to `width` bytes; longer text is left alone. -/
def padZero (width : Nat) (s : Str) : Str :=
  List.replicate (width - s.length) '0' ++ s

/-- The library call `fmt.Sprintf("%02d", n)` for `n ≥ 0`. -/
def sprintf02d (n : Nat) : Str :=
  padZero 2 (itoa n)

/-- The number a decimal numeral denotes, leading zeros allowed. -/
def decimalValue (s : Str) : Nat :=
  s.foldl (fun acc c => 10 * acc + (c.toNat - 48)) 0

/-- The text `countFormat` of `Rename.copy`: `fmt.Sprintf("%s0%dd", "%", Digits)`. -/
def countFormat (digits : Nat) : Str :=
  '%' :: '0' :: (itoa digits ++ ['d'])

/-- Whether `fmt` gives up on the width of `countFormat digits`. Its `parsenum`
checks, before reading each further digit, that the number read so far is at
most `10^6`; the largest number so checked is the width without its last
digit. -/
def widthTooLarge (digits : Nat) : Bool :=
  decide (1000000 < digits / 10)

/-- The call `fmt.Sprintf(countFormat, n)` of `Rename.copy`, `n ≥ 0`. The format
is `%`, the flag `0`, the decimal width, the verb `d`: the decimal of `n`,
zero-padded to the width (width `0`: the format is `%00d`, two flags and no
width, so no padding). When `fmt` gives up on the width it consumes the rest
of the format and reports the missing verb and the unused argument. -/
def sprintfCount (digits n : Nat) : Str :=
  if widthTooLarge digits then "%!(NOVERB)%!(EXTRA int=".toList ++ itoa n ++ [')']
  else padZero digits (itoa n)

/-! ## Instants and the date replacer -/

/-- The civil fields of an instant in the local zone. -/
structure Date where
  year : Int
  month : Nat
  day : Nat
  hour : Nat
  minute : Nat
  second : Nat
deriving DecidableEq, Repr

/-- A `time.Time` value, seen through the accessors the engine uses: the Unix
second and the nanosecond within it (they decide `Before`), and `Year()`,
`Month()`, `Day()`, `Hour()`, `Minute()`, `Second()`. -/
structure Time where
  sec : Int
  nsec : Nat
  year : Int
  month : Nat
  day : Nat
  hour : Nat
  minute : Nat
  second : Nat
deriving DecidableEq, Repr

/-- The library call `time.Unix(sec, nsec)` with `0 ≤ nsec < 10^9`; `loc` gives the
civil fields of a Unix second in the local zone. -/
def timeUnix (loc : Int → Date) (sec : Int) (nsec : Nat) : Time :=
  { sec := sec, nsec := nsec, year := (loc sec).year, month := (loc sec).month,
    day := (loc sec).day, hour := (loc sec).hour, minute := (loc sec).minute,
    second := (loc sec).second }

/-- The method `t.Before(u)`. -/
def Time.Before (t u : Time) : Prop :=
  t.sec < u.sec ∨ (t.sec = u.sec ∧ t.nsec < u.nsec)

instance (t u : Time) : Decidable (t.Before u) := by
  unfold Time.Before
  exact inferInstance

/-- The instant of a `Time`: two values with the same instant are `Equal` in Go. -/
def Time.instant (t : Time) : Int × Nat :=
  (t.sec, t.nsec)

/-- A `*strings.Replacer`: the `old, new` pairs in argument order. -/
abbrev Replacer := List (Str × Str)

/-- The function `createReplacer` of `rename.go`. -/
def createReplacer (ts : Time) : Replacer :=
  [ ("%Y".toList, sprintfD ts.year),
    ("%M".toList, sprintf02d ts.month),
    ("%d".toList, sprintf02d ts.day),
    ("%h".toList, sprintf02d ts.hour),
    ("%m".toList, sprintf02d ts.minute),
    ("%s".toList, sprintf02d ts.second) ]

/-- The lookup of the generic replacer at one position: the first pair, in
argument order, whose `old` starts the remaining input. -/
def Replacer.lookup (rep : Replacer) (s : Str) : Option (Str × Str) :=
  rep.find? (fun p => startsWith p.1 s)

/-- One scan of `(*strings.Replacer).Replace` (all `old` non-empty): at a position
where a pair matches, its `new` is written and the scan resumes after the
match; elsewhere the byte is copied. `skip` is the number of bytes of a match
still to be passed over. -/
def Replacer.replaceAux (rep : Replacer) : Nat → Str → Str
  | _, [] => []
  | skip + 1, _ :: rest => Replacer.replaceAux rep skip rest
  | 0, c :: rest =>
    match Replacer.lookup rep (c :: rest) with
    | some (old, new) => new ++ Replacer.replaceAux rep (old.length - 1) rest
    | none => c :: Replacer.replaceAux rep 0 rest

/-- The method `(*strings.Replacer).Replace`. -/
def Replacer.Replace (rep : Replacer) (s : Str) : Str :=
  Replacer.replaceAux rep 0 s

/-! ## The engine state -/

/-- The errors the engine returns. `osError` stands for any error handed up from
the operating system or the EXIF library; the others are the four
`fmt.Errorf` values of `rename.go`. -/
inductive Err where
  | osError
  | notDirectory
  | invalidDestination
  | invalidDigits
  | invalidFile
deriving DecidableEq, Repr

/-- The struct `Config`. -/
structure Config where
  OriginPath : Str
  DestinyPath : Str
  Digits : Int
  KeepOriginals : Bool
  Verbose : Bool
  fileNameFormat : Str
  directoryFormat : Str
deriving DecidableEq, Repr

/-- The struct `fileInfo`. -/
structure fileInfo where
  path : Str
  created : Time
  ext : Str
deriving DecidableEq, Repr

/-- A Go `map[string]int` as an association list with distinct keys; `range`
visits the keys in an unspecified order, here the order of first insertion. -/
abbrev GoMap := List (Str × Nat)

/-- The read `v, has := m[k]`; `none` when `has` is false. -/
def mapGet (m : GoMap) (k : Str) : Option Nat :=
  match m with
  | [] => none
  | (k', v) :: rest => if k' = k then some v else mapGet rest k

/-- The assignment `m[k] = v`. -/
def mapSet (m : GoMap) (k : Str) (v : Nat) : GoMap :=
  match m with
  | [] => [(k, v)]
  | (k', v') :: rest => if k' = k then (k, v) :: rest else (k', v') :: mapSet rest k v

/-- The read `m[k]` in an expression: the zero value for a missing key. -/
def mapRead (m : GoMap) (k : Str) : Nat :=
  (mapGet m k).getD 0

/-- The keys visited by `for d := range m`. -/
def mapKeys (m : GoMap) : List Str :=
  m.map Prod.fst

/-- The struct `Rename`. -/
structure Rename where
  config : Config
  fileList : List fileInfo
  directories : GoMap
deriving DecidableEq, Repr

/-- An open `*os.File`, seen through the calls `appendFile` makes on it: whether
`Seek(0, 0)` succeeds; `exif.Decode` followed by `DateTime()` (`none`: the
decoding fails, `some none`: it succeeds and `DateTime` fails); and
`GetFileInformationByHandle` (`none`: it fails, else the creation and the
last-write time, as `Filetime.Nanoseconds()` gives them: nanoseconds since
the Unix epoch). -/
structure File where
  seek : Bool
  exif : Option (Option Time)
  info : Option (Int × Int)
deriving DecidableEq, Repr

/-- The function `getFileTime` of `file_windows.go`. The quotient `nano/1e9` is Go
integer division, which truncates toward zero. -/
def getFileTime (loc : Int → Date) (file : File) : Except Err Time :=
  match file.info with
  | none => .error .osError
  | some (creation, lastWrite) =>
    let nano := if creation < lastWrite then creation else lastWrite
    .ok (timeUnix loc (nano.tdiv 1000000000) 0)

/-- The method `Rename.destDirectory`. -/
def Rename.destDirectory (r : Rename) (ts : Time) : Str :=
  let rep := createReplacer ts
  let path := rep.Replace r.config.DestinyPath
  match lastIndex PathSeparator path with
  | some idx => path.take idx
  | none => []

/-- The tail of `Rename.appendFile` once the instant is known. -/
def Rename.record (r : Rename) (fi : fileInfo) : Rename :=
  { r with fileList := r.fileList ++ [fi],
           directories := mapSet r.directories (r.destDirectory fi.created) 1 }

/-- The method `Rename.appendFile`: the engine state afterwards and the error
returned, if any. -/
def Rename.appendFile (loc : Int → Date) (r : Rename) (filePath : Str) (file : File) :
    Rename × Option Err :=
  match lastIndex '.' filePath with
  | none => (r, some .invalidFile)
  | some idx =>
    let ext := filePath.drop (idx + 1)
    if !file.seek then (r, some .osError)
    else
      match file.exif with
      | some (some created) => (r.record { path := filePath, created := created, ext := ext }, none)
      | _ =>
        match getFileTime loc file with
        | .error e => (r, some e)
        | .ok created => (r.record { path := filePath, created := created, ext := ext }, none)

/-- The function `formatPath`. -/
def formatPath (parent child : Str) : Str :=
  if child.length = 0 then parent else parent ++ [PathSeparator] ++ child

/-- What `ioutil.ReadDir` and `os.Open` find under the origin: a file with its
name and the result of `os.Open` (`none`: it fails), or a directory with its
name, whether `ReadDir` succeeds on it, and its content. -/
inductive Entry where
  | file (name : Str) (handle : Option File)
  | dir (name : Str) (readable : Bool) (content : List Entry)

mutual
/-- The method `Rename.walk` on the directory `dirPath`, whose node is given;
`ReadDir` fails on what is not a directory. -/
def Rename.walk (loc : Int → Date) (r : Rename) (dirPath : Str) : Entry → Except Err Rename
  | .file _ _ => .error .osError
  | .dir _ readable content =>
    if readable then Rename.walkContent loc r dirPath content else .error .osError
/-- The loop of `Rename.walk` over the content of `dirPath`. An error of
`appendFile` is printed and the loop goes on. -/
def Rename.walkContent (loc : Int → Date) (r : Rename) (dirPath : Str) :
    List Entry → Except Err Rename
  | [] => .ok r
  | .dir name readable content :: rest =>
    match Rename.walk loc r (formatPath dirPath name) (.dir name readable content) with
    | .error e => .error e
    | .ok r' => Rename.walkContent loc r' dirPath rest
  | .file name handle :: rest =>
    match handle with
    | none => .error .osError
    | some file =>
      Rename.walkContent loc (r.appendFile loc (formatPath dirPath name) file).1 dirPath rest
end

/-! ## The operating system and the transfer loop -/

/-- The operating-system calls of `Process` and `Rename.copy`, over file-system
states `σ`: `os.Stat` (`none`: an error, else whether the path is a directory),
`os.MkdirAll` (whether it succeeds, and the state it leaves), and the two
transfers, whose errors `Rename.copy` drops. -/
structure OS (σ : Type) where
  stat : σ → Str → Option Bool
  mkdirAll : σ → Str → Bool × σ
  copyFile : σ → Str → Str → σ
  moveFile : σ → Str → Str → σ

/-- The local variables of one iteration of the transfer loop of `Rename.copy`, at
the call of `copyFile` or `moveFile`: the file `f`, `fileName`,
`filesCount[fileName]`, `dir`, the first value of `dest`, whether `os.Stat`
found it, and the final `dest`. -/
structure Plan where
  file : fileInfo
  fileName : Str
  count : Nat
  dir : Str
  candidate : Str
  found : Bool
  dest : Str
  keep : Bool
deriving DecidableEq, Repr

/-- What is carried from one iteration of the transfer loop to the next. -/
structure LoopState (σ : Type) where
  fs : σ
  filesCount : GoMap
  directories : GoMap
  existCount : Nat

/-- The `fileName` of the transfer loop for the file `f`: the file-name format
after the date substitution, before the count substitution. -/
def fileNameOf (config : Config) (f : fileInfo) : Str :=
  (createReplacer f.created).Replace config.fileNameFormat

/-- The count the transfer loop renders for the key `k` when its map is `m`: `1`
for a key not seen yet. -/
def nextCount (m : GoMap) (k : Str) : Nat :=
  (mapGet m k).getD 1

/-- The values computed by one iteration of the transfer loop before its transfer. -/
def planFile (config : Config) (os : OS σ) (st : LoopState σ) (f : fileInfo) : Plan :=
  let rep := createReplacer f.created
  let fileName := rep.Replace config.fileNameFormat
  let filesCount :=
    if (mapGet st.filesCount fileName).isNone then mapSet st.filesCount fileName 1
    else st.filesCount
  let dir := rep.Replace config.directoryFormat
  let count := mapRead filesCount fileName
  let buf := dir ++ [PathSeparator]
    ++ stringsReplace fileName "{count}".toList (sprintfCount config.Digits.toNat count)
    ++ ['.'] ++ f.ext
  let found := (os.stat st.fs buf).isSome
  let dest :=
    if found then
      buf.take (buf.length - 1 - f.ext.length) ++ ['_'] ++ itoa st.existCount ++ ['.'] ++ f.ext
    else buf
  { file := f, fileName := fileName, count := count, dir := dir, candidate := buf,
    found := found, dest := dest, keep := config.KeepOriginals }

/-- One iteration of the transfer loop of `Rename.copy`. -/
def copyStep (config : Config) (os : OS σ) (st : LoopState σ) (f : fileInfo) : LoopState σ :=
  let p := planFile config os st f
  let filesCount :=
    if (mapGet st.filesCount p.fileName).isNone then mapSet st.filesCount p.fileName 1
    else st.filesCount
  { fs := if config.KeepOriginals then os.copyFile st.fs f.path p.dest
          else os.moveFile st.fs f.path p.dest,
    filesCount := mapSet filesCount p.fileName (mapRead filesCount p.fileName + 1),
    directories := mapSet st.directories p.dir (mapRead st.directories p.dir + 1),
    existCount := st.existCount }

/-- The state of the transfer loop after the files `files`. -/
def copyState (config : Config) (os : OS σ) (st : LoopState σ) : List fileInfo → LoopState σ
  | [] => st
  | f :: rest => copyState config os (copyStep config os st f) rest

/-- The transfers of the loop of `Rename.copy` over `files`, in order. -/
def copyLoop (config : Config) (os : OS σ) (st : LoopState σ) : List fileInfo → List Plan
  | [] => []
  | f :: rest => planFile config os st f :: copyLoop config os (copyStep config os st f) rest

/-- The calls `Rename.copy` makes that change the file system. -/
inductive Action where
  | mkdirAll (d : Str)
  | transfer (p : Plan)
deriving DecidableEq, Repr

/-- The result of a run: the error returned, the calls made in order, and the
file system afterwards. -/
structure Outcome (σ : Type) where
  err : Option Err
  log : List Action
  fs : σ

/-- The first loop of `Rename.copy`: `os.MkdirAll` on every key of `directories`,
stopping at the first error. The result is the directories asked for, in
order, whether all succeeded, and the file system afterwards. -/
def mkdirLoop (os : OS σ) (fs : σ) : List Str → List Str × Bool × σ
  | [] => ([], true, fs)
  | d :: rest =>
    if (os.mkdirAll fs d).1 then
      (d :: (mkdirLoop os (os.mkdirAll fs d).2 rest).1,
        (mkdirLoop os (os.mkdirAll fs d).2 rest).2)
    else ([d], false, (os.mkdirAll fs d).2)

/-- The state in which the transfer loop of `Rename.copy` starts. -/
def copyStart (r : Rename) (fs : σ) : LoopState σ :=
  { fs := fs, filesCount := [], directories := r.directories, existCount := 1 }

/-- The method `Rename.copy`. -/
def Rename.copy (os : OS σ) (r : Rename) (fs : σ) : Outcome σ :=
  let made := mkdirLoop os fs (mapKeys r.directories)
  if made.2.1 then
    { err := none,
      log := made.1.map Action.mkdirAll
        ++ (copyLoop r.config os (copyStart r made.2.2) r.fileList).map Action.transfer,
      fs := (copyState r.config os (copyStart r made.2.2) r.fileList).fs }
  else { err := some .osError, log := made.1.map Action.mkdirAll, fs := made.2.2 }

/-- The order `sort.Sort(fileInfoList(...))` sorts by: `Less(i, j)` is
`fl[i].created.Before(fl[j].created)`; `notAfter a b` says `b` is not before `a`. -/
def notAfter (a b : fileInfo) : Prop :=
  ¬ b.created.Before a.created

instance : DecidableRel notAfter := fun a b => by
  unfold notAfter
  exact inferInstance

/-- The call `sort.Sort(fileInfoList(r.fileList))`: a permutation in which no file
is before an earlier one. (Go's sort is not stable; files with equal instants
may come out in another order than here.) -/
def sortFiles (l : List fileInfo) : List fileInfo :=
  l.insertionSort notAfter

/-- Everything outside the engine that a run depends on: `filepath.Abs` (`none`:
an error), the local time zone, what the walk finds under the origin, the
operating system and its initial state. -/
structure World (σ : Type) where
  abs : Str → Option Str
  loc : Int → Date
  origin : Entry
  os : OS σ
  fs : σ

/-- The method `Rename.run`. -/
def Rename.run (w : World σ) (r : Rename) : Outcome σ :=
  match r.walk w.loc r.config.OriginPath w.origin with
  | .error e => { err := some e, log := [], fs := w.fs }
  | .ok r' => Rename.copy w.os { r' with fileList := sortFiles r'.fileList } w.fs

/-- The transfers of a log, in order. -/
def plansOf (log : List Action) : List Plan :=
  log.filterMap (fun a => match a with | .mkdirAll _ => none | .transfer p => some p)

/-- The engine state the walk of `Rename.run` leaves; the state it started from
when the walk fails. -/
def walkResult (w : World σ) (r : Rename) : Rename :=
  match r.walk w.loc r.config.OriginPath w.origin with
  | .ok r' => r'
  | .error _ => r

/-- The file system after `os.MkdirAll` was called on the directories `ds`, one
after the other. -/
def afterMkdirs (os : OS σ) (fs : σ) (ds : List Str) : σ :=
  ds.foldl (fun s d => (os.mkdirAll s d).2) fs

/-- The transfer call of the loop of `Rename.copy`: `copyFile` when the originals
are kept, `moveFile` otherwise. -/
def transferFile (config : Config) (os : OS σ) (fs : σ) (source dest : Str) : σ :=
  if config.KeepOriginals then os.copyFile fs source dest else os.moveFile fs source dest

/-- The function `Process`. -/
def Process (w : World σ) (conf : Config) : Outcome σ :=
  match w.abs conf.OriginPath with
  | none => { err := some .osError, log := [], fs := w.fs }
  | some path =>
    match w.os.stat w.fs path with
    | none => { err := some .osError, log := [], fs := w.fs }
    | some isDir =>
      if !isDir then { err := some .notDirectory, log := [], fs := w.fs }
      else
        let conf := { conf with OriginPath := path }
        match w.abs conf.DestinyPath with
        | none => { err := some .osError, log := [], fs := w.fs }
        | some path =>
          let conf := { conf with DestinyPath := path }
          match lastIndex PathSeparator conf.DestinyPath with
          | none => { err := some .invalidDestination, log := [], fs := w.fs }
          | some idx =>
            let format := conf.DestinyPath.drop (idx + 1)
            if format.length = 0 || !stringsContains format "{count}".toList then
              { err := some .invalidDestination, log := [], fs := w.fs }
            else
              let conf := { conf with directoryFormat := conf.DestinyPath.take idx,
                                      fileNameFormat := format }
              if conf.Digits < 0 then { err := some .invalidDigits, log := [], fs := w.fs }
              else Rename.run w { config := conf, fileList := [], directories := [] }

/-! ## The expansion as the specification words it -/

/-- The six date tokens `%Y %M %d %h %m %s` of the specification's table: the text
that replaces `%c`, if `%c` is a token. -/
def tokenValue (ts : Time) (c : Char) : Option Str :=
  if c = 'Y' then some (sprintfD ts.year)
  else if c = 'M' then some (sprintf02d ts.month)
  else if c = 'd' then some (sprintf02d ts.day)
  else if c = 'h' then some (sprintf02d ts.hour)
  else if c = 'm' then some (sprintf02d ts.minute)
  else if c = 's' then some (sprintf02d ts.second)
  else none

/-- The specification's `expand(template, instant)`: one pass from left to right;
a token is replaced by its text and the pass goes on after the token, every
other byte is copied. -/
def expandSpec (ts : Time) : Str → Str
  | [] => []
  | [c] => [c]
  | c :: d :: rest =>
    if c = '%' then
      match tokenValue ts d with
      | some v => v ++ expandSpec ts rest
      | none => c :: expandSpec ts (d :: rest)
    else c :: expandSpec ts (d :: rest)

/-- The text `s` is the decimal numeral of `n` without padding: digits only, of
value `n`, and no leading zero unless it is `0` itself. -/
def unpaddedDecimal (s : Str) (n : Nat) : Prop :=
  s ≠ [] ∧ (∀ c ∈ s, c.isDigit = true) ∧ decimalValue s = n ∧ (s.head? = some '0' → s = ['0'])

/-- The text `s` is the two-digit, zero-padded decimal numeral of `n`. -/
def twoDigitDecimal (s : Str) (n : Nat) : Prop :=
  s.length = 2 ∧ (∀ c ∈ s, c.isDigit = true) ∧ decimalValue s = n

/-- The six tokens. -/
def dateTokens : List Str :=
  ["%Y".toList, "%M".toList, "%d".toList, "%h".toList, "%m".toList, "%s".toList]

/-! ## A concrete file system and sample runs -/

/-- The directories `os.MkdirAll(d)` makes sure of: `d` and what lies above it. -/
def parents (d : Str) : List Str :=
  (List.range d.length).filterMap
    (fun i => if 0 < i ∧ d.get? i = some PathSeparator then some (d.take i) else none)
  ++ [d]

/-- The directory a path lies in: the text before its last separator, the root
for a path directly under it. -/
def parentOf (p : Str) : Str :=
  match lastIndex PathSeparator p with
  | some 0 => [PathSeparator]
  | some i => p.take i
  | none => []

/-- A file system given by the paths that exist, each with whether it is a
directory. `MkdirAll` fails on the empty path and where a file is in the way;
a transfer needs its source to be a file, the directory of its destination to
exist, and no directory at its destination. -/
def listOS : OS (List (Str × Bool)) where
  stat := fun fs p => fs.lookup p
  mkdirAll := fun fs d =>
    if d = [] ∨ (parents d).any (fun q => fs.lookup q = some false) then (false, fs)
    else (true, ((parents d).filter (fun q => fs.lookup q = none)).map (fun q => (q, true)) ++ fs)
  copyFile := fun fs src dest =>
    if fs.lookup src = some false ∧ fs.lookup (parentOf dest) = some true then
      (if fs.lookup dest = none then (dest, false) :: fs else fs)
    else fs
  moveFile := fun fs src dest =>
    if fs.lookup src = some false ∧ fs.lookup (parentOf dest) = some true
        ∧ fs.lookup dest ≠ some true then
      (if fs.lookup dest = none then (dest, false) :: fs.filter (fun q => q.1 ≠ src)
       else fs.filter (fun q => q.1 ≠ src))
    else fs

/-- The instant 2021-07-04 08:09:10 UTC plus `s` seconds, `s < 50`. -/
def julyFourth (s : Nat) : Time :=
  { sec := 1625386150 + s, nsec := 0, year := 2021, month := 7, day := 4, hour := 8,
    minute := 9, second := 10 + s }

/-- The civil fields of the Unix epoch in UTC. -/
def epochDate : Date :=
  { year := 1970, month := 1, day := 1, hour := 0, minute := 0, second := 0 }

/-- The civil fields in UTC of a Unix second of the first day of 1970. -/
def epochZone (s : Int) : Date :=
  { epochDate with hour := s.toNat / 3600 % 24, minute := s.toNat / 60 % 60,
                   second := s.toNat % 60 }

/-- An open file whose EXIF block carries the instant `t`. -/
def exifFile (t : Time) : File :=
  { seek := true, exif := some (some t), info := none }

/-- A world with the origin `/in` holding the files `content`, each also on disk,
besides the paths `disk`; `filepath.Abs` leaves the absolute paths used alone. -/
def sampleWorld (content : List (Str × Time)) (disk : List (Str × Bool)) :
    World (List (Str × Bool)) where
  abs := fun p => some p
  loc := epochZone
  origin := .dir "in".toList true (content.map (fun f => .file f.1 (some (exifFile f.2))))
  os := listOS
  fs := [("/".toList, true), ("/in".toList, true)]
    ++ content.map (fun f => ("/in/".toList ++ f.1, false)) ++ disk

/-- A configuration as `main` builds it. -/
def sampleConfig (dest : Str) (digits : Int) : Config :=
  { OriginPath := "/in".toList, DestinyPath := dest, Digits := digits, KeepOriginals := true,
    Verbose := false, fileNameFormat := [], directoryFormat := [] }

/-- The destinations of the transfers of a log, in order. -/
def destinations (log : List Action) : List Str :=
  log.filterMap (fun a => match a with | .mkdirAll _ => none | .transfer p => some p.dest)

/-- The directories a log asks `os.MkdirAll` for, in order. -/
def madeDirs (log : List Action) : List Str :=
  log.filterMap (fun a => match a with | .mkdirAll d => some d | .transfer _ => none)

/-- A world whose origin `/data` holds the directory `v1.2` with the one file
`README` in it. -/
def dottedWorld : World (List (Str × Bool)) where
  abs := fun p => some p
  loc := epochZone
  origin := .dir "data".toList true
    [.dir "v1.2".toList true [.file "README".toList (some (exifFile (julyFourth 0)))]]
  os := listOS
  fs := [("/".toList, true), ("/data".toList, true), ("/data/v1.2".toList, true),
    ("/data/v1.2/README".toList, false)]

/-- The engine state `Process` starts `run` with for the destination template
`/out/img_{count}`. -/
def sampleRename : Rename :=
  { config := { OriginPath := "/data".toList, DestinyPath := "/out/img_{count}".toList,
                Digits := 0, KeepOriginals := true, Verbose := false,
                fileNameFormat := "img_{count}".toList, directoryFormat := "/out".toList },
    fileList := [], directories := [] }

/-- The engine state after the walk for the destination template `/{count}`, whose
directory format is empty, and the one file `/in/a.jpg`. -/
def rootRename : Rename :=
  { config := { OriginPath := "/in".toList, DestinyPath := "/{count}".toList,
                Digits := 0, KeepOriginals := true, Verbose := false,
                fileNameFormat := "{count}".toList, directoryFormat := [] },
    fileList := [{ path := "/in/a.jpg".toList, created := julyFourth 0, ext := "jpg".toList }],
    directories := [([], 1)] }

/-- Two file records one second apart, the later one first. -/
def twoRecords : List fileInfo :=
  [ { path := "/in/b.jpg".toList, created := julyFourth 1, ext := "jpg".toList },
    { path := "/in/a.jpg".toList, created := julyFourth 0, ext := "jpg".toList } ]

/-- The instant 0001-01-01 00:00:00 UTC plus `s` seconds, `s < 60`. -/
def yearOne (s : Nat) : Time :=
  { sec := -62135596800 + s, nsec := 0, year := 1, month := 1, day := 1, hour := 0,
    minute := 0, second := s }

/-- The instant 0011-01-01 00:00:00 UTC. -/
def yearEleven : Time :=
  { sec := -61820064000, nsec := 0, year := 11, month := 1, day := 1, hour := 0,
    minute := 0, second := 0 }

/-- Eleven files `0.jpg` to `10.jpg` of the year 1, one second apart, and the file
`x.jpg` of the year 11. -/
def twelveFiles : List (Str × Time) :=
  (List.range 11).map (fun i => (itoa i ++ ".jpg".toList, yearOne i))
    ++ [("x.jpg".toList, yearEleven)]

/-- The engine state after the walk and the sort for the two files of
`twoRecords` and the destination template `/out/img_{count}`. -/
def keptRename : Rename :=
  { sampleRename with fileList := sortFiles twoRecords, directories := [("/out".toList, 1)] }

/-- A disk with the two files of `twoRecords` and the directory `/out`. -/
def keptDisk : List (Str × Bool) :=
  [("/".toList, true), ("/in".toList, true), ("/out".toList, true),
   ("/in/a.jpg".toList, false), ("/in/b.jpg".toList, false)]

/-- Ten files `0.jpg` to `9.jpg`, one second apart. -/
def tenFiles : List (Str × Time) :=
  (List.range 10).map (fun i => (itoa i ++ ".jpg".toList, julyFourth i))

/-! ## Lemmas on strings -/

theorem startsWith_iff (p s : Str) : startsWith p s = true ↔ p <+: s := by
  induction p generalizing s with
  | nil => simp [startsWith]
  | cons a p ih =>
    cases s with
    | nil => simp [startsWith]
    | cons b s =>
      simp only [startsWith, Bool.and_eq_true, decide_eq_true_eq, ih, List.cons_prefix_cons]

theorem stringsContains_iff (s sub : Str) : stringsContains s sub = true ↔ sub <:+: s := by
  induction s with
  | nil =>
    simp only [stringsContains, startsWith_iff, List.prefix_nil, List.infix_nil]
  | cons c rest ih =>
    simp only [stringsContains, Bool.or_eq_true, startsWith_iff, ih, List.infix_cons_iff]

theorem lastIndex_eq_none (c : Char) (s : Str) : lastIndex c s = none ↔ c ∉ s := by
  induction s with
  | nil => simp [lastIndex]
  | cons x xs ih =>
    simp only [lastIndex, List.mem_cons, not_or]
    cases h : lastIndex c xs with
    | some i =>
      have : ¬ (c ∉ xs) := fun hn => by rw [ih.mpr hn] at h; cases h
      simp [this]
    | none =>
      have hx := ih.mp h
      by_cases hxc : x = c
      · simp [hxc]
      · have : ¬ c = x := fun e => hxc e.symm
        simp [hxc, this, hx]

theorem lastIndex_append (c : Char) (a b : Str) (hb : c ∉ b) :
    lastIndex c (a ++ c :: b) = some a.length := by
  induction a with
  | nil => simp [lastIndex, (lastIndex_eq_none c b).mpr hb]
  | cons x xs ih => simp [lastIndex, ih]

/-! ## The date replacer is the specification's expansion -/

theorem lookup_createReplacer (ts : Time) (c : Char) (rest : Str) :
    Replacer.lookup (createReplacer ts) (c :: rest) =
      if c = '%' then
        match rest with
        | [] => none
        | d :: _ => (tokenValue ts d).map (fun v => (['%', d], v))
      else none := by
  have hY : "%Y".toList = ['%', 'Y'] := rfl
  have hM : "%M".toList = ['%', 'M'] := rfl
  have hd : "%d".toList = ['%', 'd'] := rfl
  have hh : "%h".toList = ['%', 'h'] := rfl
  have hm : "%m".toList = ['%', 'm'] := rfl
  have hs : "%s".toList = ['%', 's'] := rfl
  simp only [Replacer.lookup, createReplacer, hY, hM, hd, hh, hm, hs]
  by_cases hc : c = '%'
  · subst hc
    cases rest with
    | nil => simp [List.find?, startsWith]
    | cons d rest =>
      simp only [List.find?, startsWith, tokenValue]
      by_cases h1 : d = 'Y'
      · subst h1; simp
      by_cases h2 : d = 'M'
      · subst h2; simp
      by_cases h3 : d = 'd'
      · subst h3; simp
      by_cases h4 : d = 'h'
      · subst h4; simp
      by_cases h5 : d = 'm'
      · subst h5; simp
      by_cases h6 : d = 's'
      · subst h6; simp
      simp [h1, h2, h3, h4, h5, h6, eq_comm]
  · have hc' : ¬ '%' = c := fun h => hc h.symm
    simp [List.find?, startsWith, hc, hc']

theorem replaceAux_zero_cons (rep : Replacer) (c : Char) (rest : Str) :
    Replacer.replaceAux rep 0 (c :: rest) =
      match Replacer.lookup rep (c :: rest) with
      | some (old, new) => new ++ Replacer.replaceAux rep (old.length - 1) rest
      | none => c :: Replacer.replaceAux rep 0 rest := by
  simp only [Replacer.replaceAux]

theorem replaceAux_succ_cons (rep : Replacer) (k : Nat) (c : Char) (rest : Str) :
    Replacer.replaceAux rep (k + 1) (c :: rest) = Replacer.replaceAux rep k rest := by
  simp only [Replacer.replaceAux]

theorem replaceAux_eq_expandSpec (ts : Time) (n : Nat) :
    ∀ s : Str, s.length ≤ n → Replacer.replaceAux (createReplacer ts) 0 s = expandSpec ts s := by
  induction n with
  | zero =>
    intro s hs
    have : s = [] := List.length_eq_zero.mp (Nat.le_zero.mp hs)
    subst this
    simp [Replacer.replaceAux, expandSpec]
  | succ n ih =>
    intro s hs
    match s, hs with
    | [], _ => simp [Replacer.replaceAux, expandSpec]
    | [c], _ =>
      simp [replaceAux_zero_cons, lookup_createReplacer, expandSpec, Replacer.replaceAux]
    | c :: d :: rest, hs =>
      have h1 : (d :: rest).length ≤ n := by simpa using hs
      have h2 : rest.length ≤ n := by simp at hs; omega
      rw [expandSpec, ← ih _ h1, ← ih _ h2, replaceAux_zero_cons, lookup_createReplacer]
      by_cases hc : c = '%'
      · subst hc
        cases hv : tokenValue ts d with
        | none => simp [hv]
        | some v => simp [hv, replaceAux_succ_cons]
      · simp [hc]

theorem Replace_eq_expandSpec (ts : Time) (s : Str) :
    (createReplacer ts).Replace s = expandSpec ts s :=
  replaceAux_eq_expandSpec ts s.length s (Nat.le_refl _)

theorem tokenValue_isSome_iff (ts : Time) (d : Char) :
    (tokenValue ts d).isSome = true ↔ ['%', d] ∈ dateTokens := by
  have hY : "%Y".toList = ['%', 'Y'] := rfl
  have hM : "%M".toList = ['%', 'M'] := rfl
  have hd : "%d".toList = ['%', 'd'] := rfl
  have hh : "%h".toList = ['%', 'h'] := rfl
  have hm : "%m".toList = ['%', 'm'] := rfl
  have hs : "%s".toList = ['%', 's'] := rfl
  simp only [dateTokens, hY, hM, hd, hh, hm, hs, tokenValue]
  by_cases h1 : d = 'Y'
  · subst h1; simp
  by_cases h2 : d = 'M'
  · subst h2; simp
  by_cases h3 : d = 'd'
  · subst h3; simp
  by_cases h4 : d = 'h'
  · subst h4; simp
  by_cases h5 : d = 'm'
  · subst h5; simp
  by_cases h6 : d = 's'
  · subst h6; simp
  simp [h1, h2, h3, h4, h5, h6]

theorem expandSpec_of_no_token (ts : Time) (n : Nat) :
    ∀ s : Str, s.length ≤ n → (∀ tok ∈ dateTokens, ¬ tok <:+: s) → expandSpec ts s = s := by
  induction n with
  | zero =>
    intro s hs _
    have : s = [] := List.length_eq_zero.mp (Nat.le_zero.mp hs)
    subst this
    simp [expandSpec]
  | succ n ih =>
    intro s hs hno
    match s, hs, hno with
    | [], _, _ => simp [expandSpec]
    | [c], _, _ => simp [expandSpec]
    | c :: d :: rest, hs, hno =>
      have h1 : (d :: rest).length ≤ n := by simpa using hs
      have hno1 : ∀ tok ∈ dateTokens, ¬ tok <:+: (d :: rest) := fun tok ht hin =>
        hno tok ht (List.infix_cons hin)
      simp only [expandSpec]
      by_cases hc : c = '%'
      · subst hc
        cases hv : tokenValue ts d with
        | none => simp [ih _ h1 hno1]
        | some v =>
          exfalso
          have hmem : ['%', d] ∈ dateTokens := (tokenValue_isSome_iff ts d).mp (by simp [hv])
          exact hno _ hmem ⟨[], rest, by simp⟩
      · simp [hc, ih _ h1 hno1]

/-! ## Decimal rendering -/

theorem toDigitsCore_eq_digits (fuel : Nat) :
    ∀ (n : Nat) (ds : List Char), 0 < n → n < fuel →
      Nat.toDigitsCore 10 fuel n ds = (Nat.digits 10 n).reverse.map Nat.digitChar ++ ds := by
  induction fuel with
  | zero => intro n ds _ h; omega
  | succ fuel ih =>
    intro n ds hpos hlt
    have hdef := Nat.digits_def' (by norm_num : 1 < 10) hpos
    simp only [Nat.toDigitsCore]
    by_cases h0 : n / 10 = 0
    · have hn : n < 10 := by omega
      have hdig : Nat.digits 10 n = [n] := Nat.digits_of_lt 10 n (by omega) hn
      simp [h0, hdig, Nat.mod_eq_of_lt hn]
    · have hpos' : 0 < n / 10 := Nat.pos_of_ne_zero h0
      have hlt' : n / 10 < fuel := by omega
      simp [h0, ih (n / 10) _ hpos' hlt', hdef]

theorem itoa_zero : itoa 0 = ['0'] := by
  decide

theorem itoa_eq_digits (n : Nat) (h : 0 < n) :
    itoa n = (Nat.digits 10 n).reverse.map Nat.digitChar := by
  have := toDigitsCore_eq_digits (n + 1) n [] h (Nat.lt_succ_self n)
  simpa [itoa, Nat.toDigits] using this

theorem digitChar_isDigit (d : Nat) (h : d < 10) : (Nat.digitChar d).isDigit = true := by
  interval_cases d <;> decide

theorem digitChar_toNat (d : Nat) (h : d < 10) : (Nat.digitChar d).toNat - 48 = d := by
  interval_cases d <;> decide

theorem itoa_isDigit (n : Nat) : ∀ c ∈ itoa n, c.isDigit = true := by
  intro c hc
  rcases Nat.eq_zero_or_pos n with h | h
  · subst h
    rw [itoa_zero] at hc
    simp at hc
    subst hc
    decide
  · rw [itoa_eq_digits n h] at hc
    simp only [List.mem_map, List.mem_reverse] at hc
    obtain ⟨d, hd, rfl⟩ := hc
    exact digitChar_isDigit d (Nat.digits_lt_base (by norm_num) hd)

theorem itoa_length_pos (n : Nat) : 0 < (itoa n).length := by
  rcases Nat.eq_zero_or_pos n with h | h
  · subst h; rw [itoa_zero]; simp
  · rw [itoa_eq_digits n h]
    have : Nat.digits 10 n ≠ [] := Nat.digits_ne_nil_iff_ne_zero.mpr (by omega)
    simpa using List.length_pos.mpr this

theorem itoa_length_le_iff (n d : Nat) (hd : 0 < d) : (itoa n).length ≤ d ↔ n < 10 ^ d := by
  rcases Nat.eq_zero_or_pos n with h | h
  · subst h
    rw [itoa_zero]
    simp only [List.length_singleton]
    constructor
    · intro _; positivity
    · intro _; omega
  · rw [itoa_eq_digits n h]
    simp only [List.length_map, List.length_reverse]
    constructor
    · intro hle
      calc n < 10 ^ (Nat.digits 10 n).length := Nat.lt_base_pow_length_digits (by norm_num)
        _ ≤ 10 ^ d := Nat.pow_le_pow_right (by norm_num) hle
    · intro hlt
      have h1 := Nat.base_pow_length_digits_le 10 n (by norm_num) (by omega)
      have h2 : 10 ^ (Nat.digits 10 n).length < 10 ^ (d + 1) := by
        calc 10 ^ (Nat.digits 10 n).length ≤ 10 * n := h1
          _ < 10 * 10 ^ d := by omega
          _ = 10 ^ (d + 1) := by ring
      have := (Nat.pow_lt_pow_iff_right (by norm_num : 1 < 10)).mp h2
      omega

theorem decimalValue_append (s : Str) (c : Char) :
    decimalValue (s ++ [c]) = 10 * decimalValue s + (c.toNat - 48) := by
  simp [decimalValue, List.foldl_append]

theorem decimalValue_digits (L : List Nat) (hL : ∀ d ∈ L, d < 10) :
    decimalValue (L.reverse.map Nat.digitChar) = Nat.ofDigits 10 L := by
  induction L with
  | nil => simp [decimalValue]
  | cons d L ih =>
    have hd : d < 10 := hL d (List.mem_cons_self _ _)
    have hL' : ∀ x ∈ L, x < 10 := fun x hx => hL x (List.mem_cons_of_mem _ hx)
    rw [List.reverse_cons, List.map_append, List.map_singleton, decimalValue_append, ih hL',
      digitChar_toNat d hd, Nat.ofDigits_cons]
    omega

theorem decimalValue_itoa (n : Nat) : decimalValue (itoa n) = n := by
  rcases Nat.eq_zero_or_pos n with h | h
  · subst h; rw [itoa_zero]; decide
  · rw [itoa_eq_digits n h, decimalValue_digits _ (fun d hd => Nat.digits_lt_base (by norm_num) hd),
      Nat.ofDigits_digits]

theorem decimalValue_padZero (w : Nat) (s : Str) : decimalValue (padZero w s) = decimalValue s := by
  have key : ∀ k : Nat, List.foldl (fun acc c => 10 * acc + (c.toNat - 48)) 0
      (List.replicate k '0') = 0 := by
    intro k
    induction k with
    | zero => rfl
    | succ k ih =>
      rw [List.replicate_succ, List.foldl_cons]
      simpa using ih
  simp only [decimalValue, padZero, List.foldl_append, key]

theorem padZero_length (w : Nat) (s : Str) : (padZero w s).length = max w s.length := by
  simp only [padZero, List.length_append, List.length_replicate]
  omega

/-! ## The expansion and the path separator -/

theorem expandSpec_cons_of_ne (ts : Time) (c : Char) (tl : Str) (hc : c ≠ '%') :
    expandSpec ts (c :: tl) = c :: expandSpec ts tl := by
  cases tl with
  | nil => simp [expandSpec]
  | cons d rest => simp [expandSpec, hc]

theorem tokenValue_sep (ts : Time) : tokenValue ts PathSeparator = none := by
  simp [tokenValue, PathSeparator]

theorem expandSpec_append_sep (ts : Time) (n : Nat) :
    ∀ a b : Str, a.length ≤ n →
      expandSpec ts (a ++ PathSeparator :: b) = expandSpec ts a ++ PathSeparator :: expandSpec ts b := by
  have hsep : PathSeparator ≠ '%' := by decide
  induction n with
  | zero =>
    intro a b ha
    have : a = [] := List.length_eq_zero.mp (Nat.le_zero.mp ha)
    subst this
    simp [expandSpec_cons_of_ne ts _ _ hsep, expandSpec]
  | succ n ih =>
    intro a b ha
    match a, ha with
    | [], _ => simp [expandSpec_cons_of_ne ts _ _ hsep, expandSpec]
    | [c], _ =>
      by_cases hc : c = '%'
      · subst hc
        simp [expandSpec, tokenValue_sep, expandSpec_cons_of_ne ts _ _ hsep]
      · simp [expandSpec, hc, expandSpec_cons_of_ne ts _ _ hsep]
    | c :: d :: rest, ha =>
      have h1 : (d :: rest).length ≤ n := by simpa using ha
      have h2 : rest.length ≤ n := by simp at ha; omega
      have e1 := ih (d :: rest) b h1
      have e2 := ih rest b h2
      simp only [List.cons_append] at e1 ⊢
      by_cases hc : c = '%'
      · subst hc
        cases hv : tokenValue ts d with
        | none => simp [expandSpec, hv, e1]
        | some v => simp [expandSpec, hv, e2]
      · simp [expandSpec, hc, e1]

theorem sep_not_mem_itoa (n : Nat) : PathSeparator ∉ itoa n := by
  intro h
  have := itoa_isDigit n _ h
  revert this
  decide

theorem sep_not_mem_padZero (w : Nat) (s : Str) (hs : PathSeparator ∉ s) :
    PathSeparator ∉ padZero w s := by
  simp only [padZero, List.mem_append, List.mem_replicate, not_or]
  refine ⟨?_, hs⟩
  rintro ⟨_, h⟩
  revert h
  decide

theorem sep_not_mem_tokenValue (ts : Time) (d : Char) (v : Str) (hv : tokenValue ts d = some v) :
    PathSeparator ∉ v := by
  have h2 : ∀ n, PathSeparator ∉ sprintf02d n := fun n =>
    sep_not_mem_padZero 2 _ (sep_not_mem_itoa n)
  have hY : PathSeparator ∉ sprintfD ts.year := by
    unfold sprintfD
    split
    · simp only [List.mem_cons, not_or]
      exact ⟨by decide, sep_not_mem_itoa _⟩
    · exact sep_not_mem_itoa _
  unfold tokenValue at hv
  split_ifs at hv
  all_goals (cases hv; first | exact hY | exact h2 _)

theorem sep_not_mem_expandSpec (ts : Time) (n : Nat) :
    ∀ s : Str, s.length ≤ n → PathSeparator ∉ s → PathSeparator ∉ expandSpec ts s := by
  induction n with
  | zero =>
    intro s hs _
    have : s = [] := List.length_eq_zero.mp (Nat.le_zero.mp hs)
    subst this
    simp [expandSpec]
  | succ n ih =>
    intro s hs hno
    match s, hs, hno with
    | [], _, _ => simp [expandSpec]
    | [c], _, hno => simpa [expandSpec] using hno
    | c :: d :: rest, hs, hno =>
      have h1 : (d :: rest).length ≤ n := by simpa using hs
      have h2 : rest.length ≤ n := by simp at hs; omega
      have hc : PathSeparator ≠ c := fun e => hno (by simp [e])
      have hno1 : PathSeparator ∉ d :: rest := fun h => hno (List.mem_cons_of_mem _ h)
      have hno2 : PathSeparator ∉ rest := fun h => hno1 (List.mem_cons_of_mem _ h)
      have i1 := ih _ h1 hno1
      have i2 := ih _ h2 hno2
      simp only [expandSpec]
      split_ifs with hp
      · cases hv : tokenValue ts d with
        | none => simp only [List.mem_cons, not_or]; exact ⟨hc, i1⟩
        | some v =>
          simp only [List.mem_append, not_or]
          exact ⟨sep_not_mem_tokenValue ts d v hv, i2⟩
      · simp only [List.mem_cons, not_or]; exact ⟨hc, i1⟩

theorem destDirectory_eq (r : Rename) (ts : Time)
    (hd : r.config.DestinyPath = r.config.directoryFormat ++ PathSeparator :: r.config.fileNameFormat)
    (hf : PathSeparator ∉ r.config.fileNameFormat) :
    r.destDirectory ts = (createReplacer ts).Replace r.config.directoryFormat := by
  have hno := sep_not_mem_expandSpec ts _ _ (Nat.le_refl _) hf
  simp only [Rename.destDirectory, Replace_eq_expandSpec, hd,
    expandSpec_append_sep ts _ _ _ (Nat.le_refl _), lastIndex_append _ _ _ hno]
  simp

theorem lastIndex_some (c : Char) (s : Str) (i : Nat) (h : lastIndex c s = some i) :
    s = s.take i ++ c :: s.drop (i + 1) ∧ c ∉ s.drop (i + 1) := by
  induction s generalizing i with
  | nil => simp [lastIndex] at h
  | cons x xs ih =>
    simp only [lastIndex] at h
    cases hl : lastIndex c xs with
    | some j =>
      rw [hl] at h
      simp only [Option.some.injEq] at h
      subst h
      have := ih j hl
      simp only [List.take_succ_cons, List.drop_succ_cons, List.cons_append]
      exact ⟨by rw [← this.1], this.2⟩
    | none =>
      rw [hl] at h
      simp only at h
      split_ifs at h with hx
      simp only [Option.some.injEq] at h
      subst h
      subst hx
      simp only [List.take_zero, List.drop_succ_cons, List.drop_zero, List.nil_append, true_and]
      exact (lastIndex_eq_none _ xs).mp hl

/-! ## Maps -/

theorem mapGet_mapSet (m : GoMap) (k k' : Str) (v : Nat) :
    mapGet (mapSet m k v) k' = if k = k' then some v else mapGet m k' := by
  induction m with
  | nil => simp [mapSet, mapGet]
  | cons kv rest ih =>
    obtain ⟨a, b⟩ := kv
    simp only [mapSet]
    by_cases h : a = k
    · subst h
      simp only [if_true, mapGet]
      by_cases h2 : a = k' <;> simp [h2]
    · simp only [h, if_false, mapGet, ih]
      by_cases h2 : a = k'
      · subst h2
        have : ¬ k = a := fun e => h e.symm
        simp [this]
      · simp [h2]

theorem mem_mapKeys_mapSet_self (m : GoMap) (k : Str) (v : Nat) : k ∈ mapKeys (mapSet m k v) := by
  induction m with
  | nil => simp [mapSet, mapKeys]
  | cons kv rest ih =>
    obtain ⟨a, b⟩ := kv
    simp only [mapSet]
    by_cases h : a = k
    · simp [h, mapKeys]
    · simp only [h, if_false, mapKeys, List.map_cons, List.mem_cons]
      exact Or.inr ih

theorem mem_mapKeys_mapSet_of_mem (m : GoMap) (k k' : Str) (v : Nat) (h : k' ∈ mapKeys m) :
    k' ∈ mapKeys (mapSet m k v) := by
  induction m with
  | nil => simp [mapKeys] at h
  | cons kv rest ih =>
    obtain ⟨a, b⟩ := kv
    simp only [mapKeys, List.map_cons, List.mem_cons] at h
    simp only [mapSet]
    by_cases ha : a = k
    · subst ha
      rcases h with h | h
      · simp [mapKeys, h]
      · simp only [if_true, mapKeys, List.map_cons, List.mem_cons]
        exact Or.inr h
    · simp only [ha, if_false, mapKeys, List.map_cons, List.mem_cons]
      rcases h with h | h
      · exact Or.inl h
      · exact Or.inr (ih h)

/-! ## The walk keeps the directory of every file it records -/

theorem destDirectory_congr (r r' : Rename) (h : r'.config = r.config) (ts : Time) :
    r'.destDirectory ts = r.destDirectory ts := by
  simp [Rename.destDirectory, h]

theorem record_config (r : Rename) (fi : fileInfo) : (r.record fi).config = r.config := rfl

theorem record_dirs (r : Rename) (fi : fileInfo)
    (h : ∀ f ∈ r.fileList, r.destDirectory f.created ∈ mapKeys r.directories) :
    ∀ f ∈ (r.record fi).fileList,
      (r.record fi).destDirectory f.created ∈ mapKeys (r.record fi).directories := by
  intro f hf
  rw [destDirectory_congr r (r.record fi) (record_config r fi)]
  simp only [Rename.record, List.mem_append, List.mem_singleton] at hf ⊢
  rcases hf with hf | hf
  · exact mem_mapKeys_mapSet_of_mem _ _ _ _ (h f hf)
  · subst hf
    exact mem_mapKeys_mapSet_self _ _ _

theorem appendFile_config (loc : Int → Date) (r : Rename) (path : Str) (file : File) :
    (r.appendFile loc path file).1.config = r.config := by
  unfold Rename.appendFile
  split
  · rfl
  · split_ifs
    · rfl
    · split
      · rfl
      · split <;> rfl

theorem appendFile_dirs (loc : Int → Date) (r : Rename) (path : Str) (file : File)
    (h : ∀ f ∈ r.fileList, r.destDirectory f.created ∈ mapKeys r.directories) :
    ∀ f ∈ (r.appendFile loc path file).1.fileList,
      (r.appendFile loc path file).1.destDirectory f.created
        ∈ mapKeys (r.appendFile loc path file).1.directories := by
  unfold Rename.appendFile
  split
  · exact h
  · split_ifs
    · exact h
    · split
      · exact record_dirs r _ h
      · split
        · exact h
        · exact record_dirs r _ h

mutual
theorem walk_inv (loc : Int → Date) (cfg : Config) :
    ∀ (e : Entry) (r r' : Rename) (path : Str), r.walk loc path e = .ok r' →
      (r.config = cfg ∧ ∀ f ∈ r.fileList, r.destDirectory f.created ∈ mapKeys r.directories) →
      (r'.config = cfg ∧ ∀ f ∈ r'.fileList, r'.destDirectory f.created ∈ mapKeys r'.directories)
  | .file _ _, r, r', path, h, _ => by simp [Rename.walk] at h
  | .dir _ readable content, r, r', path, h, hr => by
    simp only [Rename.walk] at h
    split_ifs at h
    exact walkContent_inv loc cfg content r r' path h hr
theorem walkContent_inv (loc : Int → Date) (cfg : Config) :
    ∀ (l : List Entry) (r r' : Rename) (path : Str), r.walkContent loc path l = .ok r' →
      (r.config = cfg ∧ ∀ f ∈ r.fileList, r.destDirectory f.created ∈ mapKeys r.directories) →
      (r'.config = cfg ∧ ∀ f ∈ r'.fileList, r'.destDirectory f.created ∈ mapKeys r'.directories)
  | [], r, r', path, h, hr => by
    simp only [Rename.walkContent, Except.ok.injEq] at h
    subst h
    exact hr
  | .dir name readable content :: rest, r, r', path, h, hr => by
    simp only [Rename.walkContent] at h
    split at h
    · cases h
    · rename_i r1 h1
      exact walkContent_inv loc cfg rest r1 r' path h
        (walk_inv loc cfg (.dir name readable content) r r1 _ h1 hr)
  | .file name handle :: rest, r, r', path, h, hr => by
    simp only [Rename.walkContent] at h
    split at h
    · cases h
    · rename_i file
      exact walkContent_inv loc cfg rest _ r' path h
        ⟨(appendFile_config loc r _ file).trans hr.1, appendFile_dirs loc r _ file hr.2⟩
end

/-! ## The transfer loop -/

theorem mapRead_init (m : GoMap) (k : Str) :
    mapRead (if (mapGet m k).isNone then mapSet m k 1 else m) k = nextCount m k := by
  cases h : mapGet m k with
  | none => simp [mapRead, nextCount, mapGet_mapSet, h]
  | some v => simp [mapRead, nextCount, h]

theorem planFile_file (config : Config) (os : OS σ) (st : LoopState σ) (f : fileInfo) :
    (planFile config os st f).file = f := rfl

theorem planFile_fileName (config : Config) (os : OS σ) (st : LoopState σ) (f : fileInfo) :
    (planFile config os st f).fileName = fileNameOf config f := rfl

theorem planFile_dir (config : Config) (os : OS σ) (st : LoopState σ) (f : fileInfo) :
    (planFile config os st f).dir = (createReplacer f.created).Replace config.directoryFormat := rfl

theorem planFile_count (config : Config) (os : OS σ) (st : LoopState σ) (f : fileInfo) :
    (planFile config os st f).count = nextCount st.filesCount (fileNameOf config f) := by
  simp only [planFile, fileNameOf]
  exact mapRead_init _ _

theorem planFile_candidate (config : Config) (os : OS σ) (st : LoopState σ) (f : fileInfo) :
    (planFile config os st f).candidate =
      (planFile config os st f).dir ++ [PathSeparator]
        ++ stringsReplace (planFile config os st f).fileName "{count}".toList
            (sprintfCount config.Digits.toNat (planFile config os st f).count)
        ++ ['.'] ++ f.ext := rfl

theorem planFile_found (config : Config) (os : OS σ) (st : LoopState σ) (f : fileInfo) :
    (planFile config os st f).found = (os.stat st.fs (planFile config os st f).candidate).isSome :=
  rfl

theorem planFile_dest (config : Config) (os : OS σ) (st : LoopState σ) (f : fileInfo) :
    (planFile config os st f).dest =
      if (planFile config os st f).found then
        (planFile config os st f).candidate.take
            ((planFile config os st f).candidate.length - 1 - f.ext.length)
          ++ ['_'] ++ itoa st.existCount ++ ['.'] ++ f.ext
      else (planFile config os st f).candidate := rfl

theorem copyStep_existCount (config : Config) (os : OS σ) (st : LoopState σ) (f : fileInfo) :
    (copyStep config os st f).existCount = st.existCount := rfl

theorem copyStep_fs (config : Config) (os : OS σ) (st : LoopState σ) (f : fileInfo) :
    (copyStep config os st f).fs =
      if config.KeepOriginals then os.copyFile st.fs f.path (planFile config os st f).dest
      else os.moveFile st.fs f.path (planFile config os st f).dest := rfl

theorem copyStep_nextCount (config : Config) (os : OS σ) (st : LoopState σ) (f : fileInfo)
    (k : Str) :
    nextCount (copyStep config os st f).filesCount k =
      nextCount st.filesCount k + if fileNameOf config f = k then 1 else 0 := by
  have hfn : (planFile config os st f).fileName = fileNameOf config f := rfl
  simp only [copyStep, hfn, mapRead_init]
  simp only [nextCount, mapGet_mapSet]
  by_cases h : fileNameOf config f = k
  · simp [h]
  · simp only [h, if_false, Nat.add_zero]
    cases hg : mapGet st.filesCount (fileNameOf config f) with
    | none => simp [mapGet_mapSet, h]
    | some v => simp

theorem copyState_existCount (config : Config) (os : OS σ) (l : List fileInfo) :
    ∀ st : LoopState σ, (copyState config os st l).existCount = st.existCount := by
  induction l with
  | nil => intro st; rfl
  | cons f rest ih => intro st; simp only [copyState, ih, copyStep_existCount]

theorem copyState_nextCount (config : Config) (os : OS σ) (k : Str) (l : List fileInfo) :
    ∀ st : LoopState σ, nextCount (copyState config os st l).filesCount k =
      nextCount st.filesCount k + (l.filter (fun g => fileNameOf config g = k)).length := by
  induction l with
  | nil => intro st; simp [copyState]
  | cons f rest ih =>
    intro st
    simp only [copyState, ih, copyStep_nextCount, List.filter_cons]
    by_cases h : fileNameOf config f = k
    · simp [h]; omega
    · simp [h]

theorem copyState_append (config : Config) (os : OS σ) (l₁ l₂ : List fileInfo) :
    ∀ st : LoopState σ, copyState config os st (l₁ ++ l₂) =
      copyState config os (copyState config os st l₁) l₂ := by
  induction l₁ with
  | nil => intro st; rfl
  | cons f rest ih => intro st; exact ih (copyStep config os st f)

theorem copyLoop_append (config : Config) (os : OS σ) (l₁ l₂ : List fileInfo) :
    ∀ st : LoopState σ, copyLoop config os st (l₁ ++ l₂) =
      copyLoop config os st l₁ ++ copyLoop config os (copyState config os st l₁) l₂ := by
  induction l₁ with
  | nil => intro st; rfl
  | cons f rest ih =>
    intro st
    exact congrArg (List.cons (planFile config os st f)) (ih (copyStep config os st f))

theorem mem_copyLoop (config : Config) (os : OS σ) (l : List fileInfo) :
    ∀ (st : LoopState σ) (p : Plan), p ∈ copyLoop config os st l →
      ∃ pre f post, l = pre ++ f :: post ∧ p = planFile config os (copyState config os st pre) f := by
  induction l with
  | nil => intro st p h; simp [copyLoop] at h
  | cons g rest ih =>
    intro st p h
    simp only [copyLoop, List.mem_cons] at h
    rcases h with h | h
    · exact ⟨[], g, rest, rfl, h⟩
    · obtain ⟨pre, f, post, hl, hp⟩ := ih _ p h
      exact ⟨g :: pre, f, post, by simp [hl], by simpa [copyState] using hp⟩

theorem copyLoop_mem (config : Config) (os : OS σ) (st : LoopState σ) (pre post : List fileInfo)
    (f : fileInfo) :
    planFile config os (copyState config os st pre) f ∈ copyLoop config os st (pre ++ f :: post) := by
  rw [copyLoop_append]
  simp [copyLoop]

theorem mkdirLoop_all (os : OS σ) (l : List Str) :
    ∀ fs : σ, (mkdirLoop os fs l).2.1 = true → (mkdirLoop os fs l).1 = l := by
  induction l with
  | nil => intro fs _; rfl
  | cons d rest ih =>
    intro fs h
    simp only [mkdirLoop] at h ⊢
    split_ifs at h ⊢ with hd
    · simp only [List.cons.injEq, true_and]
      exact ih _ h

/-! ## The claims -/

/-! ## C2: the date replacer -/

theorem digitChar_eq_zero (d : Nat) (h : d < 10) (hz : Nat.digitChar d = '0') : d = 0 := by
  interval_cases d
  · rfl
  all_goals exact absurd hz (by decide)

theorem itoa_unpadded (n : Nat) : unpaddedDecimal (itoa n) n := by
  refine ⟨List.length_pos.mp (itoa_length_pos n), itoa_isDigit n, decimalValue_itoa n, ?_⟩
  intro hhead
  rcases Nat.eq_zero_or_pos n with h | h
  · subst h; exact itoa_zero
  · exfalso
    have hne : Nat.digits 10 n ≠ [] := Nat.digits_ne_nil_iff_ne_zero.mpr (by omega)
    rw [itoa_eq_digits n h, List.head?_map, List.head?_reverse,
      List.getLast?_eq_getLast _ hne] at hhead
    simp only [Option.map_some', Option.some.injEq] at hhead
    have hlt : (Nat.digits 10 n).getLast hne < 10 :=
      Nat.digits_lt_base (by norm_num) (List.getLast_mem hne)
    exact Nat.getLast_digit_ne_zero 10 (by omega : n ≠ 0) (digitChar_eq_zero _ hlt hhead)

theorem sprintf02d_twoDigit (n : Nat) (hn : n < 100) : twoDigitDecimal (sprintf02d n) n := by
  refine ⟨?_, ?_, ?_⟩
  · have hle := (itoa_length_le_iff n 2 (by norm_num)).mpr (by norm_num; exact hn)
    rw [sprintf02d, padZero_length]
    omega
  · intro c hc
    simp only [sprintf02d, padZero, List.mem_append, List.mem_replicate] at hc
    rcases hc with ⟨_, hc⟩ | hc
    · subst hc; decide
    · exact itoa_isDigit _ c hc
  · rw [sprintf02d, decimalValue_padZero, decimalValue_itoa]

theorem Replace_token (ts : Time) (d : Char) (v : Str) (hv : tokenValue ts d = some v) :
    (createReplacer ts).Replace ['%', d] = v := by
  simp [Replace_eq_expandSpec, expandSpec, hv]

/-- C2: the replacer built by `createReplacer` is the one-pass expansion of the
specification: a token is replaced by its text and the pass resumes after
the token, so the text written is not scanned again, and every other byte
(a `%` not followed by a token letter, and `{count}`, included) is copied.
`%Y` becomes the decimal numeral of the year without padding (after a `-`
for a negative year), and `%M`, `%d`, `%h`, `%m`, `%s` become the two-digit
zero-padded numerals of month, day, hour, minute and second. A template
without any of the six tokens comes back unchanged. For 2021-07-04 08:09:10
the template `%Y-%M-%d %h:%m:%s {count} %x %%Y` expands to
`2021-07-04 08:09:10 {count} %x %2021`. -/
theorem C2_replacer_is_one_pass_expansion (ts : Time) (tpl : Str) :
    (createReplacer ts).Replace tpl = expandSpec ts tpl ∧
    (∀ (d : Char) (rest : Str), ['%', d] ∈ dateTokens →
      (createReplacer ts).Replace ('%' :: d :: rest)
        = (createReplacer ts).Replace ['%', d] ++ (createReplacer ts).Replace rest) ∧
    (∀ (c : Char) (rest : Str),
      (∀ (d : Char) (r : Str), c = '%' → rest = d :: r → ['%', d] ∉ dateTokens) →
      (createReplacer ts).Replace (c :: rest) = c :: (createReplacer ts).Replace rest) ∧
    (0 ≤ ts.year → unpaddedDecimal ((createReplacer ts).Replace "%Y".toList) ts.year.toNat) ∧
    (ts.year < 0 → ∃ digits : Str, (createReplacer ts).Replace "%Y".toList = '-' :: digits ∧
      unpaddedDecimal digits (-ts.year).toNat) ∧
    (ts.month < 100 → twoDigitDecimal ((createReplacer ts).Replace "%M".toList) ts.month) ∧
    (ts.day < 100 → twoDigitDecimal ((createReplacer ts).Replace "%d".toList) ts.day) ∧
    (ts.hour < 100 → twoDigitDecimal ((createReplacer ts).Replace "%h".toList) ts.hour) ∧
    (ts.minute < 100 → twoDigitDecimal ((createReplacer ts).Replace "%m".toList) ts.minute) ∧
    (ts.second < 100 → twoDigitDecimal ((createReplacer ts).Replace "%s".toList) ts.second) ∧
    ((∀ tok ∈ dateTokens, ¬ tok <:+: tpl) → (createReplacer ts).Replace tpl = tpl) ∧
    (createReplacer (julyFourth 0)).Replace "%Y-%M-%d %h:%m:%s {count} %x %%Y".toList
      = "2021-07-04 08:09:10 {count} %x %2021".toList := by
  have hY : (createReplacer ts).Replace "%Y".toList = sprintfD ts.year :=
    Replace_token ts 'Y' _ (by simp [tokenValue])
  have hM : (createReplacer ts).Replace "%M".toList = sprintf02d ts.month :=
    Replace_token ts 'M' _ (by simp [tokenValue])
  have hd : (createReplacer ts).Replace "%d".toList = sprintf02d ts.day :=
    Replace_token ts 'd' _ (by simp [tokenValue])
  have hh : (createReplacer ts).Replace "%h".toList = sprintf02d ts.hour :=
    Replace_token ts 'h' _ (by simp [tokenValue])
  have hm : (createReplacer ts).Replace "%m".toList = sprintf02d ts.minute :=
    Replace_token ts 'm' _ (by simp [tokenValue])
  have hs : (createReplacer ts).Replace "%s".toList = sprintf02d ts.second :=
    Replace_token ts 's' _ (by simp [tokenValue])
  refine ⟨Replace_eq_expandSpec ts tpl, ?_, ?_, ?_, ?_, ?_, ?_, ?_, ?_, ?_, ?_, by decide⟩
  · intro d rest hd
    obtain ⟨v, hv⟩ := Option.isSome_iff_exists.mp ((tokenValue_isSome_iff ts d).mpr hd)
    rw [Replace_token ts d v hv]
    simp only [Replace_eq_expandSpec, expandSpec, hv, if_true]
  · intro c rest hcopy
    simp only [Replace_eq_expandSpec]
    by_cases hc : c = '%'
    · cases rest with
      | nil => simp [expandSpec]
      | cons d r =>
        have hnone : tokenValue ts d = none := by
          cases hv : tokenValue ts d with
          | none => rfl
          | some v =>
            exact absurd ((tokenValue_isSome_iff ts d).mp (by simp [hv])) (hcopy d r hc rfl)
        simp only [expandSpec, hc, if_true, hnone]
    · exact expandSpec_cons_of_ne ts c rest hc
  · intro h0
    rw [hY, sprintfD, if_neg (not_lt.mpr h0)]
    exact itoa_unpadded _
  · intro hneg
    exact ⟨itoa (-ts.year).toNat, by rw [hY, sprintfD, if_pos hneg], itoa_unpadded _⟩
  · intro h; rw [hM]; exact sprintf02d_twoDigit _ h
  · intro h; rw [hd]; exact sprintf02d_twoDigit _ h
  · intro h; rw [hh]; exact sprintf02d_twoDigit _ h
  · intro h; rw [hm]; exact sprintf02d_twoDigit _ h
  · intro h; rw [hs]; exact sprintf02d_twoDigit _ h
  · intro hno
    rw [Replace_eq_expandSpec]
    exact expandSpec_of_no_token ts _ tpl (Nat.le_refl _) hno

/-- C2, witness: at 2021-07-04 08:09:10 the token `%Y` becomes an unpadded numeral
of value 2021, `%M` a two-digit numeral of value 7, and the template
`img_{count}`, which has no date token, is returned as it is. -/
theorem C2_replacer_witness :
    unpaddedDecimal ((createReplacer (julyFourth 0)).Replace "%Y".toList) 2021 ∧
    twoDigitDecimal ((createReplacer (julyFourth 0)).Replace "%M".toList) 7 ∧
    (createReplacer (julyFourth 0)).Replace "img_{count}".toList = "img_{count}".toList :=
  ⟨(C2_replacer_is_one_pass_expansion (julyFourth 0) "img_{count}".toList).2.2.2.1 (by decide),
   (C2_replacer_is_one_pass_expansion (julyFourth 0) "img_{count}".toList).2.2.2.2.2.1
     (by decide),
   (C2_replacer_is_one_pass_expansion (julyFourth 0) "img_{count}".toList).2.2.2.2.2.2.2.2.2.2.1
     (by decide)⟩

/-- C1: when `os.Stat` finds nothing at the candidate path, the destination handed
to the transfer is the expanded directory format, the path separator, the
expanded file-name format with every `{count}` replaced by the rendered count,
a dot and the extension. The run of the specification's example transfers its
one file to `/photos/2021/07/img_001.jpg`. -/
theorem C1_destination_composed (config : Config) (os : OS σ) (st : LoopState σ) (f : fileInfo)
    (h : os.stat st.fs
      ((createReplacer f.created).Replace config.directoryFormat ++ [PathSeparator]
        ++ stringsReplace ((createReplacer f.created).Replace config.fileNameFormat)
            "{count}".toList
            (sprintfCount config.Digits.toNat (nextCount st.filesCount (fileNameOf config f)))
        ++ ['.'] ++ f.ext) = none) :
    (planFile config os st f).dest =
      (createReplacer f.created).Replace config.directoryFormat ++ [PathSeparator]
        ++ stringsReplace ((createReplacer f.created).Replace config.fileNameFormat)
            "{count}".toList
            (sprintfCount config.Digits.toNat (nextCount st.filesCount (fileNameOf config f)))
        ++ ['.'] ++ f.ext ∧
    destinations (Process (sampleWorld [("a.jpg".toList, julyFourth 0)] [])
        (sampleConfig "/photos/%Y/%M/img_{count}".toList 3)).log
      = ["/photos/2021/07/img_001.jpg".toList] := by
  refine ⟨?_, by decide⟩
  have hc := planFile_candidate config os st f
  rw [planFile_count, planFile_dir, planFile_fileName] at hc
  have hfound : (planFile config os st f).found = false := by
    rw [planFile_found, hc]
    simp only [fileNameOf] at h ⊢
    rw [h]
    rfl
  rw [planFile_dest, hfound, hc]
  simp [fileNameOf]

/-- C1, witness: the first iteration of the loop on the example's file. -/
theorem C1_destination_witness :
    (planFile
        { sampleConfig "/photos/%Y/%M/img_{count}".toList 3 with
          directoryFormat := "/photos/%Y/%M".toList, fileNameFormat := "img_{count}".toList }
        listOS (copyStart sampleRename [])
        { path := "/in/a.jpg".toList, created := julyFourth 0, ext := "jpg".toList }).dest
      = "/photos/2021/07/img_001.jpg".toList :=
  (C1_destination_composed
    { sampleConfig "/photos/%Y/%M/img_{count}".toList 3 with
      directoryFormat := "/photos/%Y/%M".toList, fileNameFormat := "img_{count}".toList }
    listOS (copyStart sampleRename [])
    { path := "/in/a.jpg".toList, created := julyFourth 0, ext := "jpg".toList }
    (by decide)).1

/-- C4, as stated, fails: with `digits = 1` the tenth file of a file-name pattern
gets the field `10`, two characters and not one. -/
theorem C4_counterexample_tenth_file :
    (destinations (Process (sampleWorld tenFiles [])
        (sampleConfig "/out/img_{count}".toList 1)).log).getLast?
      = some "/out/img_10.jpg".toList ∧
    sprintfCount 1 10 = "10".toList ∧ (sprintfCount 1 10).length ≠ 1 := by
  decide

/-- C4, amended: for a digit width that `fmt` accepts (below 10,000,010) the field
substituted for `{count}` is the decimal of the count, left-padded with zeros
to at least `digits` characters: it has `max digits (natural length)`
characters, exactly `digits` when `digits ≥ 1` and the count is below
`10 ^ digits`, and it is the plain decimal when `digits = 0`. -/
theorem C4_count_field_padded (config : Config) (os : OS σ) (st : LoopState σ) (f : fileInfo)
    (hw : config.Digits.toNat / 10 ≤ 1000000) :
    (planFile config os st f).candidate =
      (planFile config os st f).dir ++ [PathSeparator]
        ++ stringsReplace (planFile config os st f).fileName "{count}".toList
            (sprintfCount config.Digits.toNat (planFile config os st f).count)
        ++ ['.'] ++ f.ext ∧
    sprintfCount config.Digits.toNat (planFile config os st f).count =
      List.replicate (config.Digits.toNat - (itoa (planFile config os st f).count).length) '0'
        ++ itoa (planFile config os st f).count ∧
    (∀ c ∈ sprintfCount config.Digits.toNat (planFile config os st f).count, c.isDigit = true) ∧
    decimalValue (sprintfCount config.Digits.toNat (planFile config os st f).count)
      = (planFile config os st f).count ∧
    (sprintfCount config.Digits.toNat (planFile config os st f).count).length
      = max config.Digits.toNat (itoa (planFile config os st f).count).length ∧
    (1 ≤ config.Digits.toNat → (planFile config os st f).count < 10 ^ config.Digits.toNat →
      (sprintfCount config.Digits.toNat (planFile config os st f).count).length
        = config.Digits.toNat) ∧
    (config.Digits.toNat = 0 →
      sprintfCount config.Digits.toNat (planFile config os st f).count
        = itoa (planFile config os st f).count) := by
  have hnot : widthTooLarge config.Digits.toNat = false := by
    simp only [widthTooLarge, decide_eq_false_iff_not, not_lt]
    exact hw
  have hs : ∀ n, sprintfCount config.Digits.toNat n = padZero config.Digits.toNat (itoa n) := by
    intro n
    simp [sprintfCount, hnot]
  refine ⟨planFile_candidate config os st f, ?_, ?_, ?_, ?_, ?_, ?_⟩
  · rw [hs]; rfl
  · intro c hc
    rw [hs] at hc
    simp only [padZero, List.mem_append, List.mem_replicate] at hc
    rcases hc with ⟨_, hc⟩ | hc
    · subst hc; decide
    · exact itoa_isDigit _ c hc
  · rw [hs, decimalValue_padZero, decimalValue_itoa]
  · rw [hs, padZero_length]
  · intro h1 hlt
    have := (itoa_length_le_iff _ _ h1).mpr hlt
    rw [hs, padZero_length]
    omega
  · intro h0
    rw [hs, h0]
    simp [padZero]

/-- C4, witness: width 3 and the first file of a pattern give the field `001`. -/
theorem C4_count_field_witness :
    sprintfCount 3 1 = "001".toList ∧ (sprintfCount 3 1).length = 3 :=
  have h := C4_count_field_padded
    { sampleConfig "/photos/%Y/%M/img_{count}".toList 3 with
      directoryFormat := "/photos/%Y/%M".toList, fileNameFormat := "img_{count}".toList }
    listOS (copyStart sampleRename [])
    { path := "/in/a.jpg".toList, created := julyFourth 0, ext := "jpg".toList }
    (by decide)
  ⟨h.2.1, h.2.2.2.2.2.1 (by decide) (by decide)⟩

/-- C10, as stated, fails: for a creation time 100 ns before the Unix epoch and a
last-write time at the epoch the function returns the epoch, which is later
than the creation time. -/
theorem C10_counterexample_before_epoch :
    getFileTime epochZone { seek := true, exif := none, info := some (-100, 0) }
      = .ok (timeUnix epochZone 0 0) ∧
    (-100 : Int) < (timeUnix epochZone 0 0).sec * 1000000000
      + (timeUnix epochZone 0 0).nsec := by
  constructor
  · rfl
  · decide

theorem tdiv_bounds (a : Int) :
    a - 1000000000 < a.tdiv 1000000000 * 1000000000 ∧
    a.tdiv 1000000000 * 1000000000 < a + 1000000000 ∧
    (0 ≤ a → a.tdiv 1000000000 * 1000000000 ≤ a) := by
  have h1 := Int.tdiv_add_tmod a 1000000000
  rcases le_or_lt 0 a with h | h
  · have h2 := Int.tmod_nonneg (1000000000 : Int) h
    have h3 := Int.tmod_lt_of_pos a (by norm_num : (0 : Int) < 1000000000)
    omega
  · have h2 := Int.tmod_nonneg (1000000000 : Int) (by omega : 0 ≤ -a)
    have h3 := Int.tmod_lt_of_pos (-a) (by norm_num : (0 : Int) < 1000000000)
    have h4 := Int.tdiv_add_tmod (-a) 1000000000
    rw [Int.neg_tdiv] at h4
    omega

/-- C10, amended: when the handle query fails `getFileTime` returns an error; when
it gives the creation time `c` and the last-write time `w`, the result is
`time.Unix` of `min c w / 10^9`, the quotient rounded toward zero, with a zero
sub-second part; it is less than one second away from `min c w`, and it is
not later than `c` or `w` when `min c w` is not before the Unix epoch. -/
theorem C10_getFileTime_truncates (loc : Int → Date) (file : File) :
    (file.info = none → getFileTime loc file = .error .osError) ∧
    (∀ c w : Int, file.info = some (c, w) →
      getFileTime loc file = .ok (timeUnix loc ((min c w).tdiv 1000000000) 0) ∧
      (timeUnix loc ((min c w).tdiv 1000000000) 0).nsec = 0 ∧
      (timeUnix loc ((min c w).tdiv 1000000000) 0).sec = (min c w).tdiv 1000000000 ∧
      min c w - 1000000000 < (min c w).tdiv 1000000000 * 1000000000 ∧
      (min c w).tdiv 1000000000 * 1000000000 < min c w + 1000000000 ∧
      (0 ≤ min c w → (min c w).tdiv 1000000000 * 1000000000 ≤ c ∧
        (min c w).tdiv 1000000000 * 1000000000 ≤ w)) := by
  constructor
  · intro h
    simp [getFileTime, h]
  · intro c w h
    have hb := tdiv_bounds (min c w)
    refine ⟨?_, rfl, rfl, hb.1, hb.2.1, ?_⟩
    · simp only [getFileTime, h]
      by_cases hcw : c < w
      · simp [hcw, min_eq_left (le_of_lt hcw)]
      · simp [hcw, min_eq_right (not_lt.mp hcw)]
    · intro h0
      have := hb.2.2 h0
      exact ⟨le_trans this (min_le_left c w), le_trans this (min_le_right c w)⟩

/-- C10, witness: creation at 1.5 s and last write at 2 s after the epoch give the
instant 1 s after the epoch. -/
theorem C10_getFileTime_witness :
    getFileTime epochZone
        { seek := true, exif := none, info := some (1500000000, 2000000000) }
      = .ok (timeUnix epochZone 1 0) :=
  ((C10_getFileTime_truncates epochZone
    { seek := true, exif := none, info := some (1500000000, 2000000000) }).2
      1500000000 2000000000 rfl).1

/-- C7: with an origin that is an existing directory and an absolute destination
template `a/b` (`b` the final segment), `Process` returns an error with no
call logged and the file system untouched when `b` is empty, lacks `{count}`,
or `Digits` is negative; otherwise it is `run` on the configuration with
`directoryFormat = a` and `fileNameFormat = b`. -/
theorem C7_process_validates (w : World σ) (conf : Config) (p d a b : Str)
    (ho : w.abs conf.OriginPath = some p) (hs : w.os.stat w.fs p = some true)
    (hd : w.abs conf.DestinyPath = some d) (hab : d = a ++ PathSeparator :: b)
    (hb : PathSeparator ∉ b) :
    ((b = [] ∨ ¬ "{count}".toList <:+: b ∨ conf.Digits < 0) →
      (Process w conf = { err := some .invalidDestination, log := [], fs := w.fs } ∨
       Process w conf = { err := some .invalidDigits, log := [], fs := w.fs })) ∧
    (b ≠ [] → "{count}".toList <:+: b → 0 ≤ conf.Digits →
      Process w conf = Rename.run w
        { config := { conf with OriginPath := p, DestinyPath := d,
                                directoryFormat := a, fileNameFormat := b },
          fileList := [], directories := [] }) := by
  have hidx : lastIndex PathSeparator d = some a.length := by
    rw [hab]; exact lastIndex_append _ _ _ hb
  have htake : d.take a.length = a := by rw [hab]; simp
  have hdrop : d.drop (a.length + 1) = b := by rw [hab]; simp
  have hcont : stringsContains b "{count}".toList = true ↔ "{count}".toList <:+: b :=
    stringsContains_iff _ _
  have hlen : b.length = 0 ↔ b = [] := List.length_eq_zero
  constructor
  · intro h
    simp only [Process, ho, hs, hd, hidx, htake, hdrop]
    generalize "{count}".toList = tok at *
    by_cases h1 : b = []
    · left; simp [h1]
    by_cases h2 : tok <:+: b
    · have h3 : conf.Digits < 0 := by
        rcases h with h | h | h
        · exact absurd h h1
        · exact absurd h2 h
        · exact h
      right
      simp [hlen, h1, hcont.mpr h2, h3]
    · left
      have : stringsContains b tok = false := by
        cases hc : stringsContains b tok with
        | false => rfl
        | true => exact absurd (hcont.mp hc) h2
      simp [this]
  · intro h1 h2 h3
    simp only [Process, ho, hs, hd, hidx, htake, hdrop]
    generalize "{count}".toList = tok at *
    simp [hlen, h1, hcont.mpr h2, not_lt.mpr h3]

/-- C7, witness: the destination template `/photos/img` has no `{count}` and is
rejected before anything is done. -/
theorem C7_process_witness :
    Process (sampleWorld [("a.jpg".toList, julyFourth 0)] []) (sampleConfig "/photos/img".toList 0)
        = { err := some .invalidDestination, log := [],
            fs := (sampleWorld [("a.jpg".toList, julyFourth 0)] []).fs } ∨
    Process (sampleWorld [("a.jpg".toList, julyFourth 0)] []) (sampleConfig "/photos/img".toList 0)
        = { err := some .invalidDigits, log := [],
            fs := (sampleWorld [("a.jpg".toList, julyFourth 0)] []).fs } :=
  (C7_process_validates (sampleWorld [("a.jpg".toList, julyFourth 0)] [])
    (sampleConfig "/photos/img".toList 0) "/in".toList "/photos/img".toList "/photos".toList
    "img".toList rfl (by decide) rfl (by decide) (by decide)).1 (Or.inr (Or.inl (by decide)))

theorem appendFile_no_dot (loc : Int → Date) (r : Rename) (path : Str) (file : File)
    (h : '.' ∉ path) : r.appendFile loc path file = (r, some .invalidFile) := by
  simp [Rename.appendFile, (lastIndex_eq_none '.' path).mpr h]

/-- C8, the code at the failing input: for `/data/v1.2/README`, whose file name has
no dot, `appendFile` returns no error and records the file with the extension
`2/README`, the text after the dot of the directory name; the run transfers it
to `/out/img_1.2/README`. -/
theorem C8_extension_from_whole_path :
    sampleRename.appendFile epochZone "/data/v1.2/README".toList (exifFile (julyFourth 0))
      = ({ sampleRename with
            fileList := [{ path := "/data/v1.2/README".toList, created := julyFourth 0,
                           ext := "2/README".toList }],
            directories := [("/out".toList, 1)] }, none) ∧
    destinations (Process dottedWorld sampleRename.config).log = ["/out/img_1.2/README".toList] := by
  decide

/-! ## The chronological sort -/

theorem before_asymm (t u : Time) (h : t.Before u) : ¬ u.Before t := by
  unfold Time.Before at *
  omega

theorem before_trans (t u v : Time) (h₁ : t.Before u) (h₂ : u.Before v) : t.Before v := by
  unfold Time.Before at *
  omega

theorem before_of_notAfter (a b : fileInfo) (h : notAfter a b)
    (hne : a.created.instant ≠ b.created.instant) : a.created.Before b.created := by
  unfold notAfter Time.Before at h
  unfold Time.Before
  have : ¬ (a.created.sec = b.created.sec ∧ a.created.nsec = b.created.nsec) := by
    rintro ⟨h1, h2⟩
    exact hne (by simp [Time.instant, h1, h2])
  omega

theorem sortFiles_perm (l : List fileInfo) : (sortFiles l).Perm l :=
  List.perm_insertionSort _ _

theorem sortFiles_sorted (l : List fileInfo) : (sortFiles l).Pairwise notAfter := by
  haveI : IsTotal fileInfo notAfter := ⟨fun a b => by
    unfold notAfter Time.Before
    omega⟩
  haveI : IsTrans fileInfo notAfter := ⟨fun a b c h₁ h₂ => by
    unfold notAfter Time.Before at *
    omega⟩
  exact List.sorted_insertionSort notAfter l

theorem sortFiles_distinct (l : List fileInfo)
    (hdist : l.Pairwise (fun a b => a.created.instant ≠ b.created.instant)) :
    (sortFiles l).Pairwise (fun a b => a.created.instant ≠ b.created.instant) :=
  ((sortFiles_perm l).pairwise_iff (fun h => Ne.symm h)).mpr hdist

theorem sortFiles_strict (l : List fileInfo)
    (hdist : l.Pairwise (fun a b => a.created.instant ≠ b.created.instant)) :
    (sortFiles l).Pairwise (fun a b => a.created.Before b.created) :=
  ((sortFiles_sorted l).and (sortFiles_distinct l hdist)).imp
    (fun h => before_of_notAfter _ _ h.1 h.2)

theorem sortFiles_congr (l l' : List fileInfo)
    (hdist : l.Pairwise (fun a b => a.created.instant ≠ b.created.instant))
    (hp : l'.Perm l) : sortFiles l' = sortFiles l := by
  refine List.Perm.eq_of_sorted ?_ (sortFiles_sorted l') (sortFiles_sorted l)
    ((sortFiles_perm l').trans (hp.trans (sortFiles_perm l).symm))
  intro a b ha hb hab hba
  have ha' : a ∈ l := hp.subset ((sortFiles_perm l').subset ha)
  have hb' : b ∈ l := (sortFiles_perm l).subset hb
  by_contra hne
  have hinst := hdist.forall (fun _ _ h => Ne.symm h) ha' hb' hne
  exact before_asymm _ _ (before_of_notAfter a b hab hinst)
    (before_of_notAfter b a hba (Ne.symm hinst))

theorem copyLoop_files (config : Config) (os : OS σ) (l : List fileInfo) :
    ∀ st : LoopState σ, (copyLoop config os st l).map Plan.file = l := by
  induction l with
  | nil => intro st; rfl
  | cons f rest ih => intro st; simp only [copyLoop, List.map_cons, ih, planFile_file]

theorem earlier_in_sorted (config : Config) (l pre post : List fileInfo) (f : fileInfo) (k : Str)
    (hl : l = pre ++ f :: post) (hs : l.Pairwise (fun a b => a.created.Before b.created)) :
    (l.filter (fun g => decide (fileNameOf config g = k ∧ g.created.Before f.created))).length
      = (pre.filter (fun g => fileNameOf config g = k)).length := by
  subst hl
  rw [List.pairwise_append] at hs
  obtain ⟨_, hfp, hpre⟩ := hs
  rw [List.pairwise_cons] at hfp
  have h1 : pre.filter (fun g => decide (fileNameOf config g = k ∧ g.created.Before f.created))
      = pre.filter (fun g => fileNameOf config g = k) := by
    apply List.filter_congr
    intro g hg
    have := hpre g hg f (List.mem_cons_self _ _)
    simp [this]
  have h2 : (f :: post).filter
      (fun g => decide (fileNameOf config g = k ∧ g.created.Before f.created)) = [] := by
    rw [List.filter_eq_nil_iff]
    intro g hg
    simp only [List.mem_cons] at hg
    have hnb : ¬ g.created.Before f.created := by
      rcases hg with hg | hg
      · subst hg
        intro h
        exact before_asymm _ _ h h
      · exact before_asymm _ _ (hfp.1 g hg)
    simp [hnb]
  rw [List.filter_append, h1, h2]
  simp

theorem count_formula (config : Config) (os : OS σ) (r : Rename) (fs : σ) (files : List fileInfo)
    (hdist : files.Pairwise (fun a b => a.created.instant ≠ b.created.instant))
    (p : Plan) (hp : p ∈ copyLoop config os (copyStart r fs) (sortFiles files)) :
    p.file ∈ files ∧ p.fileName = fileNameOf config p.file ∧
    p.count = 1 + (files.filter (fun g =>
      decide (fileNameOf config g = p.fileName ∧ g.created.Before p.file.created))).length := by
  obtain ⟨pre, f, post, hl, rfl⟩ := mem_copyLoop config os _ _ p hp
  have hmem : f ∈ files := (sortFiles_perm files).subset (by rw [hl]; simp)
  refine ⟨hmem, rfl, ?_⟩
  rw [planFile_count, copyState_nextCount, planFile_file, planFile_fileName]
  have hperm := ((sortFiles_perm files).filter (fun g =>
    decide (fileNameOf config g = fileNameOf config f ∧ g.created.Before f.created))).length_eq
  rw [← hperm, earlier_in_sorted config _ pre post f _ hl (sortFiles_strict files hdist)]
  simp [copyStart, nextCount, mapGet]

theorem sorted_loop_counts (config : Config) (os : OS σ) (r : Rename) (fs : σ)
    (files : List fileInfo)
    (hdist : files.Pairwise (fun a b => a.created.instant ≠ b.created.instant)) :
    (copyLoop config os (copyStart r fs) (sortFiles files)).map Plan.file = sortFiles files ∧
    (sortFiles files).Perm files ∧
    (∀ p ∈ copyLoop config os (copyStart r fs) (sortFiles files),
      p.fileName = fileNameOf config p.file ∧
      p.count = 1 + (files.filter (fun g =>
        decide (fileNameOf config g = p.fileName ∧ g.created.Before p.file.created))).length) ∧
    (∀ p ∈ copyLoop config os (copyStart r fs) (sortFiles files),
      ∀ q ∈ copyLoop config os (copyStart r fs) (sortFiles files),
        p.fileName = q.fileName → p.file.created.Before q.file.created → p.count < q.count) ∧
    (∀ files' : List fileInfo, files'.Perm files →
      copyLoop config os (copyStart r fs) (sortFiles files')
        = copyLoop config os (copyStart r fs) (sortFiles files)) := by
  refine ⟨copyLoop_files _ _ _ _, sortFiles_perm files, ?_, ?_, ?_⟩
  · intro p hp
    exact (count_formula config os r fs files hdist p hp).2
  · intro p hp q hq hname hbefore
    obtain ⟨hpm, hpn, hpc⟩ := count_formula config os r fs files hdist p hp
    obtain ⟨_, _, hqc⟩ := count_formula config os r fs files hdist q hq
    rw [hpc, hqc, ← hname]
    have hsub : (files.filter (fun g =>
          decide (fileNameOf config g = p.fileName ∧ g.created.Before p.file.created))).Sublist
        (files.filter (fun g =>
          decide (fileNameOf config g = p.fileName ∧ g.created.Before q.file.created))) := by
      apply List.monotone_filter_right
      intro g hg
      simp only [decide_eq_true_eq] at hg ⊢
      exact ⟨hg.1, before_trans _ _ _ hg.2 hbefore⟩
    have hle := hsub.length_le
    have hne : (files.filter (fun g =>
          decide (fileNameOf config g = p.fileName ∧ g.created.Before p.file.created))).length
        ≠ (files.filter (fun g =>
          decide (fileNameOf config g = p.fileName ∧ g.created.Before q.file.created))).length := by
      intro heq
      have hEq := hsub.eq_of_length heq
      have hin : p.file ∈ files.filter (fun g =>
          decide (fileNameOf config g = p.fileName ∧ g.created.Before q.file.created)) := by
        simp only [List.mem_filter, decide_eq_true_eq]
        exact ⟨hpm, hpn.symm, hbefore⟩
      rw [← hEq] at hin
      simp only [List.mem_filter, decide_eq_true_eq] at hin
      exact before_asymm _ _ hin.2.2 hin.2.2
    omega
  · intro files' hperm
    rw [sortFiles_congr files files' hdist hperm]

/-! ## C3: the counts of a run -/

mutual
theorem walk_config (loc : Int → Date) :
    ∀ (e : Entry) (r r' : Rename) (path : Str), r.walk loc path e = .ok r' → r'.config = r.config
  | .file _ _, r, r', path, h => by simp [Rename.walk] at h
  | .dir _ readable content, r, r', path, h => by
    simp only [Rename.walk] at h
    split_ifs at h
    exact walkContent_config loc content r r' path h
theorem walkContent_config (loc : Int → Date) :
    ∀ (l : List Entry) (r r' : Rename) (path : Str), r.walkContent loc path l = .ok r' →
      r'.config = r.config
  | [], r, r', path, h => by
    simp only [Rename.walkContent, Except.ok.injEq] at h
    subst h
    rfl
  | .dir name readable content :: rest, r, r', path, h => by
    simp only [Rename.walkContent] at h
    split at h
    · cases h
    · rename_i r1 h1
      exact (walkContent_config loc rest r1 r' path h).trans
        (walk_config loc (.dir name readable content) r r1 _ h1)
  | .file name handle :: rest, r, r', path, h => by
    simp only [Rename.walkContent] at h
    split at h
    · cases h
    · rename_i file
      exact (walkContent_config loc rest _ r' path h).trans (appendFile_config loc r _ file)
end

theorem walkResult_config (w : World σ) (r : Rename) : (walkResult w r).config = r.config := by
  unfold walkResult
  split
  · rename_i r' h
    exact walk_config w.loc w.origin r r' _ h
  · rfl

theorem plansOf_append (l₁ l₂ : List Action) : plansOf (l₁ ++ l₂) = plansOf l₁ ++ plansOf l₂ := by
  simp [plansOf, List.filterMap_append]

theorem plansOf_mkdirs (ds : List Str) : plansOf (ds.map Action.mkdirAll) = [] := by
  induction ds with
  | nil => rfl
  | cons d rest ih => simp [plansOf]

theorem plansOf_transfers (ps : List Plan) : plansOf (ps.map Action.transfer) = ps := by
  induction ps with
  | nil => rfl
  | cons p rest ih =>
    simp only [plansOf, List.map_cons, List.filterMap_cons] at ih ⊢
    rw [ih]

theorem madeDirs_append (l₁ l₂ : List Action) :
    madeDirs (l₁ ++ l₂) = madeDirs l₁ ++ madeDirs l₂ := by
  simp [madeDirs, List.filterMap_append]

theorem madeDirs_mkdirs (ds : List Str) : madeDirs (ds.map Action.mkdirAll) = ds := by
  induction ds with
  | nil => rfl
  | cons d rest ih =>
    simp only [madeDirs, List.map_cons, List.filterMap_cons] at ih ⊢
    rw [ih]

theorem madeDirs_transfers (ps : List Plan) : madeDirs (ps.map Action.transfer) = [] := by
  induction ps with
  | nil => rfl
  | cons p rest ih => simp [madeDirs]

theorem copy_plans (os : OS σ) (r : Rename) (fs : σ) :
    ((Rename.copy os r fs).err ≠ none ∧ plansOf (Rename.copy os r fs).log = []) ∨
    ((Rename.copy os r fs).err = none ∧
      plansOf (Rename.copy os r fs).log
        = copyLoop r.config os (copyStart r (mkdirLoop os fs (mapKeys r.directories)).2.2)
            r.fileList) := by
  unfold Rename.copy
  by_cases hok : (mkdirLoop os fs (mapKeys r.directories)).2.1 = true
  · right
    simp [hok, plansOf_append, plansOf_mkdirs, plansOf_transfers]
  · left
    simp [hok, plansOf_mkdirs]

theorem run_plans (w : World σ) (r : Rename) :
    ((Rename.run w r).err ≠ none ∧ plansOf (Rename.run w r).log = []) ∨
    ((Rename.run w r).err = none ∧ ∃ (r₀ : Rename) (fs' : σ),
      plansOf (Rename.run w r).log
        = copyLoop r.config w.os (copyStart r₀ fs') (sortFiles (walkResult w r).fileList)) := by
  have hcfg := walkResult_config w r
  unfold Rename.run
  unfold walkResult at hcfg ⊢
  cases hwalk : r.walk w.loc r.config.OriginPath w.origin with
  | error e => left; simp [plansOf]
  | ok r' =>
    rw [hwalk] at hcfg
    simp only at hcfg ⊢
    rcases copy_plans w.os { r' with fileList := sortFiles r'.fileList } w.fs with h | h
    · exact Or.inl h
    · refine Or.inr ⟨h.1, { r' with fileList := sortFiles r'.fileList },
        (mkdirLoop w.os w.fs (mapKeys r'.directories)).2.2, ?_⟩
      rw [h.2]
      simp only [hcfg]

/-- C3: in a run whose files have pairwise distinct instants, `Rename.run` hands
the files to the transfer loop in chronological order, every file once; the
count rendered into a file's name is 1 plus the number of files of the run
with the same expanded file-name pattern and a strictly earlier instant; of
two files sharing a pattern the earlier one gets the smaller count; and a
walk that finds the same files in another order gives every file the same
pattern and count. -/
theorem C3_count_is_rank_within_pattern (w : World σ) (r : Rename)
    (hdist : (walkResult w r).fileList.Pairwise
      (fun a b => a.created.instant ≠ b.created.instant)) :
    (plansOf (Rename.run w r).log).Pairwise
      (fun p q => p.file.created.Before q.file.created) ∧
    ((Rename.run w r).err = none →
      ((plansOf (Rename.run w r).log).map Plan.file).Perm (walkResult w r).fileList) ∧
    (∀ p ∈ plansOf (Rename.run w r).log,
      p.fileName = (createReplacer p.file.created).Replace r.config.fileNameFormat ∧
      p.count = 1 + ((walkResult w r).fileList.filter (fun g =>
        decide ((createReplacer g.created).Replace r.config.fileNameFormat = p.fileName
          ∧ g.created.Before p.file.created))).length ∧
      p.candidate = p.dir ++ [PathSeparator]
        ++ stringsReplace p.fileName "{count}".toList
            (sprintfCount r.config.Digits.toNat p.count)
        ++ ['.'] ++ p.file.ext) ∧
    (∀ p ∈ plansOf (Rename.run w r).log, ∀ q ∈ plansOf (Rename.run w r).log,
      p.fileName = q.fileName → p.file.created.Before q.file.created → p.count < q.count) ∧
    (∀ w' : World σ, (walkResult w' r).fileList.Perm (walkResult w r).fileList →
      ∀ p ∈ plansOf (Rename.run w r).log, ∀ q ∈ plansOf (Rename.run w' r).log,
        p.file = q.file → p.fileName = q.fileName ∧ p.count = q.count) := by
  have key : ∀ (w₁ : World σ),
      (walkResult w₁ r).fileList.Pairwise (fun a b => a.created.instant ≠ b.created.instant) →
      ∀ p ∈ plansOf (Rename.run w₁ r).log,
        p.fileName = fileNameOf r.config p.file ∧
        p.count = 1 + ((walkResult w₁ r).fileList.filter (fun g =>
          decide (fileNameOf r.config g = p.fileName
            ∧ g.created.Before p.file.created))).length := by
    intro w₁ hd₁ p hp
    rcases run_plans w₁ r with h | ⟨_, r₀, fs', h⟩
    · rw [h.2] at hp; simp at hp
    · rw [h] at hp
      exact ((sorted_loop_counts r.config w₁.os r₀ fs' _ hd₁).2.2.1 p hp)
  rcases run_plans w r with h | ⟨herr, r₀, fs', h⟩
  · refine ⟨by rw [h.2]; exact List.Pairwise.nil, fun he => absurd he h.1, ?_, ?_, ?_⟩
    · intro p hp; rw [h.2] at hp; simp at hp
    · intro p hp; rw [h.2] at hp; simp at hp
    · intro w' _ p hp; rw [h.2] at hp; simp at hp
  · have hs := sorted_loop_counts r.config w.os r₀ fs' _ hdist
    refine ⟨?_, ?_, ?_, ?_, ?_⟩
    · have hstrict := sortFiles_strict _ hdist
      rw [← hs.1, List.pairwise_map] at hstrict
      rw [h]
      exact hstrict
    · intro _
      rw [h, hs.1]
      exact hs.2.1
    · intro p hp
      have hk := key w hdist p hp
      refine ⟨hk.1, hk.2, ?_⟩
      rw [h] at hp
      obtain ⟨pre, f, post, _, rfl⟩ := mem_copyLoop _ _ _ _ p hp
      exact planFile_candidate _ _ _ _
    · intro p hp q hq
      rw [h] at hp hq
      exact hs.2.2.2.1 p hp q hq
    · intro w' hperm p hp q hq hfile
      have hdist' : (walkResult w' r).fileList.Pairwise
          (fun a b => a.created.instant ≠ b.created.instant) :=
        (hperm.pairwise_iff (fun h => Ne.symm h)).mpr hdist
      have hp' := key w hdist p hp
      have hq' := key w' hdist' q hq
      have hname : p.fileName = q.fileName := by rw [hp'.1, hq'.1, hfile]
      refine ⟨hname, ?_⟩
      rw [hp'.2, hq'.2, hname, hfile]
      congr 1
      exact ((hperm.filter _).length_eq).symm

/-- C3, witness: the walk finds `b.jpg` (08:09:11) before `a.jpg` (08:09:10); the
run handles `a.jpg` first, with count 1, and `b.jpg` second, with count 2. -/
theorem C3_count_witness :
    (plansOf (Rename.run
        (sampleWorld [("b.jpg".toList, julyFourth 1), ("a.jpg".toList, julyFourth 0)] [])
        { sampleRename with config := { sampleRename.config with OriginPath := "/in".toList } }
      ).log).Pairwise (fun p q => p.file.created.Before q.file.created) ∧
    (plansOf (Rename.run
        (sampleWorld [("b.jpg".toList, julyFourth 1), ("a.jpg".toList, julyFourth 0)] [])
        { sampleRename with config := { sampleRename.config with OriginPath := "/in".toList } }
      ).log).map (fun p => (p.file.path, p.count))
      = [("/in/a.jpg".toList, 1), ("/in/b.jpg".toList, 2)] :=
  ⟨(C3_count_is_rank_within_pattern
      (sampleWorld [("b.jpg".toList, julyFourth 1), ("a.jpg".toList, julyFourth 0)] [])
      { sampleRename with config := { sampleRename.config with OriginPath := "/in".toList } }
      (by decide)).1, by decide⟩

/-- C5, the code at the failing input: two files whose candidates `/out/img_1.jpg`
and `/out/img_2.jpg` both exist already. The variable `existCount` is never
incremented, so the second collision gets the suffix `_1` again, not `_2`. -/
theorem C5_second_collision_suffix :
    destinations (Process
        (sampleWorld [("a.jpg".toList, julyFourth 0), ("b.jpg".toList, julyFourth 1)]
          [("/out".toList, true), ("/out/img_1.jpg".toList, false),
           ("/out/img_2.jpg".toList, false)])
        (sampleConfig "/out/img_{count}".toList 0)).log
      = ["/out/img_1_1.jpg".toList, "/out/img_2_1.jpg".toList] := by
  decide

theorem Process_hands_validated (w : World σ) (conf : Config) :
    (∃ e, Process w conf = { err := some e, log := [], fs := w.fs }) ∨
    (∃ r : Rename, Process w conf = Rename.run w r ∧
      r.config.DestinyPath
        = r.config.directoryFormat ++ PathSeparator :: r.config.fileNameFormat ∧
      PathSeparator ∉ r.config.fileNameFormat ∧
      "{count}".toList <:+: r.config.fileNameFormat ∧
      0 ≤ r.config.Digits ∧ r.fileList = [] ∧ r.directories = []) := by
  cases h1 : w.abs conf.OriginPath with
  | none => exact Or.inl ⟨.osError, by simp only [Process, h1]⟩
  | some p =>
    cases h2 : w.os.stat w.fs p with
    | none => exact Or.inl ⟨.osError, by simp only [Process, h1, h2]⟩
    | some isDir =>
      cases isDir with
      | false => exact Or.inl ⟨.notDirectory, by simp [Process, h1, h2]⟩
      | true =>
        cases h3 : w.abs conf.DestinyPath with
        | none => exact Or.inl ⟨.osError, by simp [Process, h1, h2, h3]⟩
        | some d =>
          cases h4 : lastIndex PathSeparator d with
          | none => exact Or.inl ⟨.invalidDestination, by simp [Process, h1, h2, h3, h4]⟩
          | some idx =>
            obtain ⟨hsplit, hnot⟩ := lastIndex_some _ _ _ h4
            by_cases hfmt : ((d.drop (idx + 1)).length = 0
                || !stringsContains (d.drop (idx + 1)) "{count}".toList) = true
            · refine Or.inl ⟨.invalidDestination, ?_⟩
              simp only [Process, h1, h2, h3, h4, Bool.not_true, Bool.false_eq_true, if_false]
              rw [if_pos hfmt]
            · by_cases hdig : conf.Digits < 0
              · refine Or.inl ⟨.invalidDigits, ?_⟩
                simp only [Process, h1, h2, h3, h4, Bool.not_true, Bool.false_eq_true, if_false]
                rw [if_neg hfmt, if_pos hdig]
              · refine Or.inr ⟨Rename.mk
                  (Config.mk p d conf.Digits conf.KeepOriginals conf.Verbose
                    (d.drop (idx + 1)) (d.take idx)) [] [], ?_, ?_, ?_, ?_, ?_, ?_, ?_⟩
                · simp only [Process, h1, h2, h3, h4, Bool.not_true, Bool.false_eq_true, if_false]
                  rw [if_neg hfmt, if_neg hdig]
                · exact hsplit
                · exact hnot
                · simp only [Bool.or_eq_true, Bool.not_eq_true', not_or, Bool.not_eq_false] at hfmt
                  exact (stringsContains_iff _ _).mp hfmt.2
                · exact not_lt.mp hdig
                · rfl
                · rfl

theorem collision_suffix_is_one (config : Config) (os : OS σ) (r : Rename) (fs : σ)
    (files : List fileInfo) (p : Plan)
    (hp : p ∈ copyLoop config os (copyStart r fs) files) (hfound : p.found = true) :
    p.dest = p.candidate.take (p.candidate.length - 1 - p.file.ext.length)
      ++ ['_'] ++ "1".toList ++ ['.'] ++ p.file.ext := by
  obtain ⟨pre, f, post, _, rfl⟩ := mem_copyLoop config os _ _ p hp
  have hone : itoa (copyStart r fs).existCount = "1".toList := by
    show itoa 1 = "1".toList
    decide
  rw [planFile_dest, hfound, if_pos rfl, copyState_existCount, planFile_file, hone]

/-! ## C9: the directories are made before the transfers -/

theorem mkdirLoop_ok (os : OS σ) (l : List Str) :
    ∀ fs : σ,
      (∀ pre d post, l = pre ++ d :: post → (os.mkdirAll (afterMkdirs os fs pre) d).1 = true) →
      mkdirLoop os fs l = (l, true, afterMkdirs os fs l) := by
  induction l with
  | nil => intro fs _; rfl
  | cons d₀ rest ih =>
    intro fs h
    have h0 : (os.mkdirAll fs d₀).1 = true := h [] d₀ rest rfl
    have hrest := ih (os.mkdirAll fs d₀).2
      (fun pre d post hsplit => h (d₀ :: pre) d post (by rw [hsplit]; rfl))
    simp only [mkdirLoop, h0, if_true, hrest]
    rfl

theorem mkdirLoop_fail (os : OS σ) (pre : List Str) :
    ∀ (fs : σ) (d : Str) (post : List Str),
      (∀ pre' d' post', pre = pre' ++ d' :: post' →
        (os.mkdirAll (afterMkdirs os fs pre') d').1 = true) →
      (os.mkdirAll (afterMkdirs os fs pre) d).1 = false →
      mkdirLoop os fs (pre ++ d :: post)
        = (pre ++ [d], false, (os.mkdirAll (afterMkdirs os fs pre) d).2) := by
  induction pre with
  | nil =>
    intro fs d post _ hfail
    have hfail' : (os.mkdirAll fs d).1 = false := hfail
    simp only [List.nil_append, mkdirLoop, hfail', Bool.false_eq_true, if_false]
    rfl
  | cons d₀ rest ih =>
    intro fs d post hbefore hfail
    have h0 : (os.mkdirAll fs d₀).1 = true := hbefore [] d₀ rest rfl
    have hrest := ih (os.mkdirAll fs d₀).2 d post
      (fun pre' d' post' hsplit => hbefore (d₀ :: pre') d' post' (by rw [hsplit]; rfl)) hfail
    simp only [List.cons_append, mkdirLoop, h0, if_true]
    rw [show rest.append (d :: post) = rest ++ d :: post from rfl, hrest]
    rfl

theorem mkdirLoop_true (os : OS σ) (l : List Str) :
    ∀ fs : σ, (mkdirLoop os fs l).2.1 = true →
      (mkdirLoop os fs l).2.2 = afterMkdirs os fs l ∧
      ∀ pre d post, l = pre ++ d :: post → (os.mkdirAll (afterMkdirs os fs pre) d).1 = true := by
  induction l with
  | nil =>
    intro fs _
    exact ⟨rfl, fun pre d post h => by simp at h⟩
  | cons d₀ rest ih =>
    intro fs h
    simp only [mkdirLoop] at h ⊢
    by_cases h0 : (os.mkdirAll fs d₀).1 = true
    · simp only [h0, if_true] at h ⊢
      obtain ⟨hfs, hall⟩ := ih _ h
      refine ⟨hfs, ?_⟩
      intro pre d post hsplit
      cases pre with
      | nil =>
        simp only [List.nil_append, List.cons.injEq] at hsplit
        rw [← hsplit.1]
        exact h0
      | cons a pre' =>
        simp only [List.cons_append, List.cons.injEq] at hsplit
        rw [← hsplit.1]
        exact hall pre' d post hsplit.2
    · simp [h0] at h

/-- C9: for a configuration as `Process` hands it to `run` (the destination
template is the directory format, a separator and a file-name format without
separator), the directory `destDirectory` records for an instant is the
expanded directory format; the log of a run is its `MkdirAll` calls followed
by its transfers; the directory of every transfer is the expanded directory
format at its file's instant, is a key of the directory map, and `os.MkdirAll`
on it succeeded before the first transfer; after an error there is no
transfer. `Rename.copy` calls `os.MkdirAll` on the keys one after the other
and starts the transfer loop in the file system they leave; at the first
failing call it returns the error with nothing but the `MkdirAll` calls made. -/
theorem C9_directories_made_before_transfers (w : World σ) (r : Rename)
    (hd : r.config.DestinyPath
      = r.config.directoryFormat ++ PathSeparator :: r.config.fileNameFormat)
    (hf : PathSeparator ∉ r.config.fileNameFormat) (hl : r.fileList = []) :
    (∀ ts : Time, r.destDirectory ts = (createReplacer ts).Replace r.config.directoryFormat) ∧
    (Rename.run w r).log = (madeDirs (Rename.run w r).log).map Action.mkdirAll
      ++ (plansOf (Rename.run w r).log).map Action.transfer ∧
    (∀ p ∈ plansOf (Rename.run w r).log,
      p.dir = (createReplacer p.file.created).Replace r.config.directoryFormat ∧
      p.dir = r.destDirectory p.file.created ∧
      madeDirs (Rename.run w r).log = mapKeys (walkResult w r).directories ∧
      ∃ pre post : List Str, mapKeys (walkResult w r).directories = pre ++ p.dir :: post ∧
        (w.os.mkdirAll (afterMkdirs w.os w.fs pre) p.dir).1 = true) ∧
    ((Rename.run w r).err ≠ none → plansOf (Rename.run w r).log = []) ∧
    (∀ (r' : Rename) (fs : σ),
      (∀ pre d post, mapKeys r'.directories = pre ++ d :: post →
        (w.os.mkdirAll (afterMkdirs w.os fs pre) d).1 = true) →
      Rename.copy w.os r' fs =
        { err := none,
          log := (mapKeys r'.directories).map Action.mkdirAll
            ++ (copyLoop r'.config w.os
                (copyStart r' (afterMkdirs w.os fs (mapKeys r'.directories)))
                r'.fileList).map Action.transfer,
          fs := (copyState r'.config w.os
            (copyStart r' (afterMkdirs w.os fs (mapKeys r'.directories))) r'.fileList).fs }) ∧
    (∀ (r' : Rename) (fs : σ) (pre : List Str) (d : Str) (post : List Str),
      mapKeys r'.directories = pre ++ d :: post →
      (∀ pre' d' post', pre = pre' ++ d' :: post' →
        (w.os.mkdirAll (afterMkdirs w.os fs pre') d').1 = true) →
      (w.os.mkdirAll (afterMkdirs w.os fs pre) d).1 = false →
      Rename.copy w.os r' fs =
        { err := some .osError, log := (pre ++ [d]).map Action.mkdirAll,
          fs := (w.os.mkdirAll (afterMkdirs w.os fs pre) d).2 }) := by
  have hdest := fun ts => destDirectory_eq r ts hd hf
  have hrun : (Rename.run w r).log = (madeDirs (Rename.run w r).log).map Action.mkdirAll
      ++ (plansOf (Rename.run w r).log).map Action.transfer ∧
      (∀ p ∈ plansOf (Rename.run w r).log,
        p.dir = (createReplacer p.file.created).Replace r.config.directoryFormat ∧
        p.dir = r.destDirectory p.file.created ∧
        madeDirs (Rename.run w r).log = mapKeys (walkResult w r).directories ∧
        ∃ pre post : List Str, mapKeys (walkResult w r).directories = pre ++ p.dir :: post ∧
          (w.os.mkdirAll (afterMkdirs w.os w.fs pre) p.dir).1 = true) ∧
      ((Rename.run w r).err ≠ none → plansOf (Rename.run w r).log = []) := by
    unfold Rename.run walkResult
    cases hwalk : r.walk w.loc r.config.OriginPath w.origin with
    | error e => simp [plansOf, madeDirs]
    | ok r' =>
      obtain ⟨hcfg, hinv⟩ := walk_inv w.loc r.config w.origin r r' _ hwalk
        ⟨rfl, by rw [hl]; simp⟩
      simp only [Rename.copy]
      by_cases hok : (mkdirLoop w.os w.fs (mapKeys r'.directories)).2.1 = true
      · obtain ⟨hfs, hall⟩ := mkdirLoop_true w.os _ w.fs hok
        have hmade := mkdirLoop_all w.os _ w.fs hok
        simp only [hok, if_true, plansOf_append, plansOf_mkdirs, plansOf_transfers,
          madeDirs_append, madeDirs_mkdirs, madeDirs_transfers, List.nil_append,
          List.append_nil, true_and]
        refine ⟨?_, fun h => absurd rfl h⟩
        intro p hp
        obtain ⟨pre, f, post, hsplit, rfl⟩ := mem_copyLoop _ _ _ _ p hp
        have hmem : f ∈ r'.fileList :=
          (sortFiles_perm r'.fileList).subset (by rw [hsplit]; simp)
        have hkey : (createReplacer f.created).Replace r.config.directoryFormat
            ∈ mapKeys r'.directories := by
          rw [← hdest, ← destDirectory_congr r r' hcfg]
          exact hinv f hmem
        rw [planFile_dir, planFile_file, hcfg, hdest]
        refine ⟨rfl, rfl, hmade, ?_⟩
        obtain ⟨a, b, hab⟩ := List.append_of_mem hkey
        exact ⟨a, b, hab, hall a _ b hab⟩
      · simp [hok, plansOf_mkdirs, madeDirs_mkdirs]
  refine ⟨hdest, hrun.1, hrun.2.1, hrun.2.2, ?_, ?_⟩
  · intro r' fs hall
    simp only [Rename.copy, mkdirLoop_ok w.os _ fs hall, if_true]
  · intro r' fs pre d post hkeys hbefore hfail
    simp only [Rename.copy, hkeys, mkdirLoop_fail w.os pre fs d post hbefore hfail,
      Bool.false_eq_true, if_false]

/-- C9, witness: for the configuration of the specification's example the
directory recorded for 2021-07-04 08:09:10 is `/photos/2021/07`; with the
destination template `/{count}` the one directory is the empty path, on which
`MkdirAll` fails, and `copy` returns the error after that one call. -/
theorem C9_directories_witness :
    Rename.destDirectory
        { config := { sampleConfig "/photos/%Y/%M/img_{count}".toList 3 with
            directoryFormat := "/photos/%Y/%M".toList, fileNameFormat := "img_{count}".toList },
          fileList := [], directories := [] } (julyFourth 0)
      = "/photos/2021/07".toList ∧
    Rename.copy listOS rootRename (sampleWorld [("a.jpg".toList, julyFourth 0)] []).fs
      = { err := some .osError, log := [Action.mkdirAll []],
          fs := (sampleWorld [("a.jpg".toList, julyFourth 0)] []).fs } :=
  ⟨(C9_directories_made_before_transfers (sampleWorld [("a.jpg".toList, julyFourth 0)] [])
      { config := { sampleConfig "/photos/%Y/%M/img_{count}".toList 3 with
          directoryFormat := "/photos/%Y/%M".toList, fileNameFormat := "img_{count}".toList },
        fileList := [], directories := [] }
      (by decide) (by decide) rfl).1 (julyFourth 0),
   (C9_directories_made_before_transfers (sampleWorld [("a.jpg".toList, julyFourth 0)] [])
      { config := { sampleConfig "/photos/%Y/%M/img_{count}".toList 3 with
          directoryFormat := "/photos/%Y/%M".toList, fileNameFormat := "img_{count}".toList },
        fileList := [], directories := [] }
      (by decide) (by decide) rfl).2.2.2.2.2 rootRename
      (sampleWorld [("a.jpg".toList, julyFourth 0)] []).fs [] [] [] rfl
      (fun pre' d' post' h => absurd h (by simp)) (by decide)⟩

/-! ## C6: which destinations are free -/

theorem take_stem (stem ext : Str) :
    (stem ++ ['.'] ++ ext).take ((stem ++ ['.'] ++ ext).length - 1 - ext.length) = stem := by
  have hlen : (stem ++ ['.'] ++ ext).length - 1 - ext.length = stem.length := by
    simp only [List.length_append, List.length_cons, List.length_nil]
    omega
  rw [hlen, List.append_assoc, List.take_left]

theorem copyStep_fs_transfer (config : Config) (os : OS σ) (st : LoopState σ) (f : fileInfo) :
    (copyStep config os st f).fs
      = transferFile config os st.fs f.path (planFile config os st f).dest := rfl

theorem copyState_persists (config : Config) (os : OS σ) (x : Str)
    (hlaw : ∀ (fs : σ) (src dest p : Str), os.stat fs p ≠ none →
      (config.KeepOriginals = false → p ≠ src) →
      os.stat (transferFile config os fs src dest) p ≠ none)
    (l : List fileInfo) :
    ∀ st : LoopState σ, os.stat st.fs x ≠ none →
      (config.KeepOriginals = false → ∀ h ∈ l, h.path ≠ x) →
      os.stat (copyState config os st l).fs x ≠ none := by
  induction l with
  | nil => intro st h _; exact h
  | cons f rest ih =>
    intro st h hsrc
    apply ih (copyStep config os st f)
    · rw [copyStep_fs_transfer]
      exact hlaw _ _ _ _ h
        (fun hk => Ne.symm (hsrc hk f (List.mem_cons_self _ _)))
    · intro hk g hg
      exact hsrc hk g (List.mem_cons_of_mem _ hg)

theorem listOS_keep_persists (config : Config) (hk : config.KeepOriginals = true)
    (fs : List (Str × Bool)) (src dest p : Str) (h : listOS.stat fs p ≠ none)
    (_ : config.KeepOriginals = false → p ≠ src) :
    listOS.stat (transferFile config listOS fs src dest) p ≠ none := by
  simp only [transferFile, hk, if_true, listOS] at h ⊢
  split_ifs with h1 h2
  · rw [List.lookup_cons]
    split
    · simp
    · exact h
  · exact h
  · exact h

/-- C6, as stated, fails. With `/out/img_1.jpg` and `/out/img_1_1.jpg` both on disk,
the one file of the run is transferred to `/out/img_1_1.jpg`, which exists
when the transfer is made. And with `/out/111.jpg` on disk and the template
`/out/%Y{count}`, the eleventh file of the year 1 and the first file of the
year 11 both have the candidate `/out/111.jpg` and are both transferred to
`/out/111_1.jpg`: two source files, one destination. -/
theorem C6_counterexample_suffixed_path_taken :
    destinations (Process
        (sampleWorld [("a.jpg".toList, julyFourth 0)]
          [("/out".toList, true), ("/out/img_1.jpg".toList, false),
           ("/out/img_1_1.jpg".toList, false)])
        (sampleConfig "/out/img_{count}".toList 0)).log
      = ["/out/img_1_1.jpg".toList] ∧
    listOS.stat
        (mkdirLoop listOS
          (sampleWorld [("a.jpg".toList, julyFourth 0)]
            [("/out".toList, true), ("/out/img_1.jpg".toList, false),
             ("/out/img_1_1.jpg".toList, false)]).fs
          ["/out".toList]).2.2
        "/out/img_1_1.jpg".toList
      = some false ∧
    ((plansOf (Process
        (sampleWorld twelveFiles [("/out".toList, true), ("/out/111.jpg".toList, false)])
        (sampleConfig "/out/%Y{count}".toList 0)).log).drop 10).map
          (fun p => (p.file.path, p.dest))
      = [("/in/10.jpg".toList, "/out/111_1.jpg".toList),
         ("/in/x.jpg".toList, "/out/111_1.jpg".toList)] := by
  decide

/-- C6, amended: the transfers of `Rename.copy` are those of its loop, started in
the file system the `MkdirAll` calls leave. A file whose candidate `os.Stat`
does not find is transferred to that candidate, which does not exist at that
moment; a file whose candidate is found is transferred to the candidate with
`_` and a number inserted before the dot of the extension. Where a transfer
removes no path but its source when files are moved, and none when they are
kept, the destination of a file whose candidate is not found differs from the
destination of every earlier file that was on disk after its transfer and
was not the source of a file moved in between. -/
theorem C6_unfound_candidate_is_free (os : OS σ) (r : Rename) (fs fs' : σ) :
    ((Rename.copy os r fs).err = none →
      plansOf (Rename.copy os r fs).log
        = copyLoop r.config os (copyStart r (afterMkdirs os fs (mapKeys r.directories)))
            r.fileList) ∧
    (∀ (pre post : List fileInfo) (f : fileInfo), r.fileList = pre ++ f :: post →
      planFile r.config os (copyState r.config os (copyStart r fs') pre) f
        ∈ copyLoop r.config os (copyStart r fs') r.fileList ∧
      (copyState r.config os (copyStart r fs') (pre ++ [f])).fs
        = transferFile r.config os (copyState r.config os (copyStart r fs') pre).fs f.path
            (planFile r.config os (copyState r.config os (copyStart r fs') pre) f).dest ∧
      (os.stat (copyState r.config os (copyStart r fs') pre).fs
          (planFile r.config os (copyState r.config os (copyStart r fs') pre) f).candidate
            = none →
        (planFile r.config os (copyState r.config os (copyStart r fs') pre) f).dest
          = (planFile r.config os (copyState r.config os (copyStart r fs') pre) f).candidate ∧
        os.stat (copyState r.config os (copyStart r fs') pre).fs
          (planFile r.config os (copyState r.config os (copyStart r fs') pre) f).dest = none) ∧
      (os.stat (copyState r.config os (copyStart r fs') pre).fs
          (planFile r.config os (copyState r.config os (copyStart r fs') pre) f).candidate
            ≠ none →
        ∃ (stem : Str) (n : Nat),
          (planFile r.config os (copyState r.config os (copyStart r fs') pre) f).candidate
            = stem ++ ['.'] ++ f.ext ∧
          (planFile r.config os (copyState r.config os (copyStart r fs') pre) f).dest
            = stem ++ ['_'] ++ itoa n ++ ['.'] ++ f.ext)) ∧
    ((∀ (s : σ) (src dest p : Str), os.stat s p ≠ none →
        (r.config.KeepOriginals = false → p ≠ src) →
        os.stat (transferFile r.config os s src dest) p ≠ none) →
      ∀ (pre mid post : List fileInfo) (g f : fileInfo),
        r.fileList = pre ++ g :: (mid ++ f :: post) →
        os.stat (copyState r.config os (copyStart r fs') (pre ++ [g])).fs
          (planFile r.config os (copyState r.config os (copyStart r fs') pre) g).dest ≠ none →
        (r.config.KeepOriginals = false → ∀ h ∈ mid,
          h.path ≠ (planFile r.config os (copyState r.config os (copyStart r fs') pre) g).dest) →
        os.stat (copyState r.config os (copyStart r fs') (pre ++ g :: mid)).fs
          (planFile r.config os
            (copyState r.config os (copyStart r fs') (pre ++ g :: mid)) f).candidate = none →
        (planFile r.config os (copyState r.config os (copyStart r fs') pre) g).dest
          ≠ (planFile r.config os
              (copyState r.config os (copyStart r fs') (pre ++ g :: mid)) f).dest) := by
  refine ⟨?_, ?_, ?_⟩
  · intro herr
    rcases copy_plans os r fs with h | h
    · exact absurd herr h.1
    · rw [h.2]
      have hok : (mkdirLoop os fs (mapKeys r.directories)).2.1 = true := by
        by_contra hno
        simp [Rename.copy, hno] at herr
      rw [(mkdirLoop_true os _ fs hok).1]
  · intro pre post f hsplit
    refine ⟨by rw [hsplit]; exact copyLoop_mem _ _ _ pre post f,
      by rw [copyState_append]; rfl, ?_, ?_⟩
    · intro hnone
      have hfound : (planFile r.config os (copyState r.config os (copyStart r fs') pre) f).found
          = false := by
        rw [planFile_found, hnone]; rfl
      have hdest : (planFile r.config os (copyState r.config os (copyStart r fs') pre) f).dest
          = (planFile r.config os (copyState r.config os (copyStart r fs') pre) f).candidate := by
        rw [planFile_dest, hfound]; rfl
      exact ⟨hdest, by rw [hdest]; exact hnone⟩
    · intro hsome
      have hfound : (planFile r.config os (copyState r.config os (copyStart r fs') pre) f).found
          = true := by
        rw [planFile_found]
        exact Option.isSome_iff_ne_none.mpr hsome
      refine ⟨(planFile r.config os (copyState r.config os (copyStart r fs') pre) f).dir
          ++ [PathSeparator]
          ++ stringsReplace
              (planFile r.config os (copyState r.config os (copyStart r fs') pre) f).fileName
              "{count}".toList
              (sprintfCount r.config.Digits.toNat
                (planFile r.config os (copyState r.config os (copyStart r fs') pre) f).count),
        (copyState r.config os (copyStart r fs') pre).existCount,
        planFile_candidate _ _ _ _, ?_⟩
      rw [planFile_dest, hfound, if_pos rfl, planFile_candidate, take_stem]
  · intro hlaw pre mid post g f hsplit hon hsrc hnone
    have hstate : copyState r.config os (copyStart r fs') (pre ++ g :: mid)
        = copyState r.config os (copyState r.config os (copyStart r fs') (pre ++ [g])) mid := by
      rw [← copyState_append]
      simp
    have hstill := copyState_persists r.config os _ hlaw mid _ hon hsrc
    rw [← hstate] at hstill
    have hfound : (planFile r.config os
        (copyState r.config os (copyStart r fs') (pre ++ g :: mid)) f).found = false := by
      rw [planFile_found, hnone]; rfl
    have hdest : (planFile r.config os
        (copyState r.config os (copyStart r fs') (pre ++ g :: mid)) f).dest
        = (planFile r.config os
            (copyState r.config os (copyStart r fs') (pre ++ g :: mid)) f).candidate := by
      rw [planFile_dest, hfound]; rfl
    intro heq
    rw [heq, hdest] at hstill
    exact hstill hnone

/-- C6, witness: with the originals kept, `a.jpg` is written to `/out/img_1.jpg`,
which is on disk afterwards, and `b.jpg`, whose candidate `/out/img_2.jpg` is
not found, gets another destination. -/
theorem C6_unfound_candidate_witness :
    (planFile keptRename.config listOS
        (copyState keptRename.config listOS (copyStart keptRename keptDisk) [])
        { path := "/in/a.jpg".toList, created := julyFourth 0, ext := "jpg".toList }).dest
      ≠ (planFile keptRename.config listOS
          (copyState keptRename.config listOS (copyStart keptRename keptDisk)
            ([] ++ { path := "/in/a.jpg".toList, created := julyFourth 0,
                     ext := "jpg".toList } :: []))
          { path := "/in/b.jpg".toList, created := julyFourth 1, ext := "jpg".toList }).dest ∧
    (copyLoop keptRename.config listOS (copyStart keptRename keptDisk) keptRename.fileList).map
        Plan.dest = ["/out/img_1.jpg".toList, "/out/img_2.jpg".toList] :=
  ⟨(C6_unfound_candidate_is_free listOS keptRename keptDisk keptDisk).2.2
      (listOS_keep_persists keptRename.config rfl) [] [] []
      { path := "/in/a.jpg".toList, created := julyFourth 0, ext := "jpg".toList }
      { path := "/in/b.jpg".toList, created := julyFourth 1, ext := "jpg".toList }
      (by decide) (by decide) (fun hk => absurd hk (by decide)) (by decide),
   by decide⟩

end Motakjuq
